import Mathlib

/-!
Elsys sensor payload decoder

A shallow embedding of `main.go` (package `main` of `elchemista/elsys_sensor`):
the tag-driven walk of `Decoder.Decode` over a byte buffer, the byte-assembly
helpers `u16`, `u32`, `i32`, and the bounds check `have`.

Modelling conventions.

* A Go `byte` is a `Fin 256`.  Wider machine integers are kept as their bit
  pattern, a natural number reduced `% 2^w`; a signed type is read off its
  pattern in two's complement at the point where Go converts it to `float64`.
* `float64` values are modelled by exact rationals: every integer that occurs
  is below `2^53`, so the conversion `float64(v)` is exact, and the single
  division of a field is taken as the exact quotient.
* Go's `int` indices are natural numbers (a slice length is far below `2^63`).
  Inside `Decode` the cursor is below `len(raw)` and at most 4 is added to
  it, so no `int` operation wraps there.  The helper `have` as a function of
  arbitrary `int` arguments does wrap; `haveInt` models it with 64-bit
  arithmetic, and agrees with `have_` wherever the sum does not wrap.
* The pair `([]Measurement, error)` returned by `Decode` is `Outcome.ret`;
  an index-out-of-range run-time panic and the exhaustion of the loop fuel
  are separate outcomes, so that their absence is a theorem, not a convention.
* The library call `base64.StdEncoding.DecodeString` is a parameter of
  `Decode`; `stdDecodeString` is a codec written after the specification's
  description of the transport codec and serves as a concrete instance.
-/

namespace Elsys

/-- Go `byte`. -/
abbrev Byte := Fin 256

/-- Measurement is a named metric value returned by Decode. -/
structure Measurement where
  Name : String
  Value : ℚ
  deriving DecidableEq, Repr

/-- The errors `Decode` can return: the wrapped base-64 error (with the text of
its cause), `errors.New("empty payload")`, `errShort`, and `errUnknown`
wrapped together with the offending byte and its index. -/
inductive DecodeError where
  | base64 (cause : String)
  | emptyPayload
  | errShort
  | errUnknown (tag : Byte) (index : Nat)
  deriving DecidableEq, Repr

/-- What a call can do: return the Go pair `(m, err)` (`err = none` is Go's
`nil` error, `ms = []` is Go's `nil` slice), panic on an out-of-range index,
or not finish within the fuel given to the loop. -/
inductive Outcome where
  | ret (ms : List Measurement) (err : Option DecodeError)
  | panic
  | diverge
  deriving DecidableEq, Repr

def TYPE_TEMP : Byte := 0x01
def TYPE_RH : Byte := 0x02
def TYPE_ACC : Byte := 0x03
def TYPE_LIGHT : Byte := 0x04
def TYPE_MOTION : Byte := 0x05
def TYPE_CO2 : Byte := 0x06
def TYPE_VDD : Byte := 0x07
def TYPE_EXT_ANALOG_UV : Byte := 0x1B
def TYPE_TVOC : Byte := 0x1C
def TYPE_PRESSURE : Byte := 0x14

/-- Bit pattern of `uint16(h)<<8 | uint16(l)`: u16 returns an unsigned
big-endian uint16 from two bytes. -/
def u16 (h l : Byte) : Nat :=
  ((h.val <<< 8) % 2 ^ 16) ||| l.val

/-- Bit pattern of `uint32(b3)<<24 | uint32(b2)<<16 | uint32(b1)<<8 | uint32(b0)`:
u32 returns an unsigned big-endian uint32 from four bytes. -/
def u32 (b3 b2 b1 b0 : Byte) : Nat :=
  ((b3.val <<< 24) % 2 ^ 32) ||| ((b2.val <<< 16) % 2 ^ 32) |||
    ((b1.val <<< 8) % 2 ^ 32) ||| b0.val

/-- Value of a `w`-bit two's-complement pattern, as Go reads a signed integer
of that width. -/
def toSigned (w : Nat) (pat : Nat) : Int :=
  if pat % 2 ^ w < 2 ^ (w - 1) then (pat % 2 ^ w : Nat) else (pat % 2 ^ w : Nat) - 2 ^ w

/-- The conversion `int32(u32(b3, b2, b1, b0))`: i32 returns a signed
big-endian int32 from four bytes. -/
def i32 (b3 b2 b1 b0 : Byte) : Int :=
  toSigned 32 (u32 b3 b2 b1 b0)

/-- Bit pattern of the expression `int16(h)<<8 | int16(l)` of the temperature
case; `int16(b)` of a byte keeps its value, the shift wraps at 16 bits. -/
def int16Word (h l : Byte) : Nat :=
  ((h.val <<< 8) % 2 ^ 16) ||| l.val

/-- The conversion `int8(b)` of a byte, as a value. -/
def int8 (b : Byte) : Int :=
  toSigned 8 b.val

/-- The source's `have(idx, needed, buf)` at the arguments `Decode` passes, a
cursor and a width as natural numbers: verifies that n more bytes (after the
type byte) are available.  It is `haveInt` wherever `idx + needed` does not
exceed the largest `int`. -/
def have_ (idx needed : Nat) (buf : List Byte) : Bool :=
  decide (idx + needed < buf.length)

/-- The largest value of Go's `int` on a 64-bit platform. -/
def maxInt64 : Int := 2 ^ 63 - 1

/-- The result of an `int` operation whose exact value is `z`: the 64-bit
two's-complement value congruent to `z`, as Go's integer arithmetic wraps. -/
def wrapInt64 (z : Int) : Int :=
  (z + 2 ^ 63) % 2 ^ 64 - 2 ^ 63

/-- The source's `have(idx, needed int, buf []byte) bool` with Go's `int`
arithmetic: `idx+needed` wraps at 64 bits before it is compared with
`len(buf)`. -/
def haveInt (idx needed : Int) (buf : List Byte) : Bool :=
  decide (wrapInt64 (idx + needed) < (buf.length : Int))

/-- Effect of one pass through the `switch` of the loop body: append `ms` to
`m` and add `adv` to `i` (the loop's own `i++` comes on top), leave `Decode`
with `return nil, e`, or panic on an out-of-range read. -/
inductive Step where
  | append (ms : List Measurement) (adv : Nat)
  | fail (e : DecodeError)
  | panic
  deriving DecidableEq, Repr

/-- The `switch raw[i] { ... }` statement of `Decode`, case by case. -/
def switchBody (raw : List Byte) (i : Nat) : Step :=
  match raw[i]? with
  | none => .panic
  | some t =>
    if t = TYPE_TEMP then
      if !have_ i 2 raw then .fail .errShort
      else match raw[i+1]?, raw[i+2]? with
        | some h, some l =>
          .append [⟨"temperature", (toSigned 16 (int16Word h l) : ℚ) / 10⟩] 2
        | _, _ => .panic
    else if t = TYPE_RH then
      if !have_ i 1 raw then .fail .errShort
      else match raw[i+1]? with
        | some b => .append [⟨"humidity", (b.val : ℚ)⟩] 1
        | _ => .panic
    else if t = TYPE_ACC then
      if !have_ i 3 raw then .fail .errShort
      else match raw[i+1]?, raw[i+2]?, raw[i+3]? with
        | some x, some y, some z =>
          .append [⟨"acc_x", (int8 x : ℚ) / 63⟩, ⟨"acc_y", (int8 y : ℚ) / 63⟩,
            ⟨"acc_z", (int8 z : ℚ) / 63⟩] 3
        | _, _, _ => .panic
    else if t = TYPE_LIGHT then
      if !have_ i 2 raw then .fail .errShort
      else match raw[i+1]?, raw[i+2]? with
        | some h, some l => .append [⟨"light", (u16 h l : ℚ)⟩] 2
        | _, _ => .panic
    else if t = TYPE_MOTION then
      if !have_ i 1 raw then .fail .errShort
      else match raw[i+1]? with
        | some b => .append [⟨"motion", (b.val : ℚ)⟩] 1
        | _ => .panic
    else if t = TYPE_CO2 then
      if !have_ i 2 raw then .fail .errShort
      else match raw[i+1]?, raw[i+2]? with
        | some h, some l => .append [⟨"co2", (u16 h l : ℚ)⟩] 2
        | _, _ => .panic
    else if t = TYPE_VDD then
      if !have_ i 2 raw then .fail .errShort
      else match raw[i+1]?, raw[i+2]? with
        | some h, some l => .append [⟨"vdd", (u16 h l : ℚ)⟩] 2
        | _, _ => .panic
    else if t = TYPE_EXT_ANALOG_UV then
      if !have_ i 4 raw then .fail .errShort
      else match raw[i+1]?, raw[i+2]?, raw[i+3]?, raw[i+4]? with
        | some b3, some b2, some b1, some b0 =>
          .append [⟨"analog_uv", (i32 b3 b2 b1 b0 : ℚ)⟩] 4
        | _, _, _, _ => .panic
    else if t = TYPE_TVOC then
      if !have_ i 2 raw then .fail .errShort
      else match raw[i+1]?, raw[i+2]? with
        | some h, some l => .append [⟨"tvoc", (u16 h l : ℚ)⟩] 2
        | _, _ => .panic
    else if t = TYPE_PRESSURE then
      if !have_ i 4 raw then .fail .errShort
      else match raw[i+1]?, raw[i+2]?, raw[i+3]?, raw[i+4]? with
        | some b3, some b2, some b1, some b0 =>
          .append [⟨"pressure", (u32 b3 b2 b1 b0 : ℚ) / 1000⟩] 4
        | _, _, _, _ => .panic
    else .fail (.errUnknown t i)

/-- The loop `for i := 0; i < len(raw); i++ { switch ... }` followed by
`return m, nil`, started at cursor `i` with accumulator `m`; every iteration
uses one unit of fuel. -/
def decodeLoop : Nat → List Byte → Nat → List Measurement → Outcome
  | 0, raw, i, m => if i < raw.length then .diverge else .ret m none
  | fuel + 1, raw, i, m =>
    if i < raw.length then
      match switchBody raw i with
      | .append ms adv => decodeLoop fuel raw (i + adv + 1) (m ++ ms)
      | .fail e => .ret [] (some e)
      | .panic => .panic
    else .ret m none

/-- The part of `Decode` that follows the transport step (from the
`len(raw) == 0` test to `return m, nil`): the decoder on a raw byte buffer.
The loop gets `len(raw)` units of fuel. -/
def decodeRaw (raw : List Byte) : Outcome :=
  if raw.length = 0 then .ret [] (some .emptyPayload)
  else decodeLoop raw.length raw 0 []

/-- Decode parses Elsys TLV data carried in a base-64 string.  The library
call `base64.StdEncoding.DecodeString` is the parameter `decodeString`; it
returns the bytes or the text of its error. -/
def Decode (decodeString : String → Except String (List Byte)) (b64 : String) : Outcome :=
  match decodeString b64 with
  | .error err => .ret [] (some (.base64 err))
  | .ok raw => decodeRaw raw

/-! ## The field table of the specification -/

/-- Big-endian reading of a byte sequence, most significant byte first. -/
def bigEndian (p : List Byte) : Nat :=
  p.foldl (fun acc b => 256 * acc + b.val) 0

/-- Two's-complement reading of an unsigned word `n` of `bits` bits. -/
def twosComplement (bits : Nat) (n : Nat) : Int :=
  if n < 2 ^ (bits - 1) then (n : Int) else (n : Int) - 2 ^ bits

/-- Field Descriptor of the specification: payload width and the transform
from the payload bytes to the measurement(s). -/
structure FieldDescriptor where
  width : Nat
  measure : List Byte → List Measurement

/-- The field table of the specification (tag → width, transform, name(s)),
row by row; `none` for a byte that is not a recognised tag. -/
def fieldTable (t : Byte) : Option FieldDescriptor :=
  if t = 0x01 then
    some ⟨2, fun p => [⟨"temperature", (twosComplement 16 (bigEndian p) : ℚ) / 10⟩]⟩
  else if t = 0x02 then
    some ⟨1, fun p => [⟨"humidity", (bigEndian p : ℚ)⟩]⟩
  else if t = 0x03 then
    some ⟨3, fun p => List.zipWith
      (fun name b => ⟨name, (twosComplement 8 (bigEndian [b]) : ℚ) / 63⟩)
      ["acc_x", "acc_y", "acc_z"] p⟩
  else if t = 0x04 then
    some ⟨2, fun p => [⟨"light", (bigEndian p : ℚ)⟩]⟩
  else if t = 0x05 then
    some ⟨1, fun p => [⟨"motion", (bigEndian p : ℚ)⟩]⟩
  else if t = 0x06 then
    some ⟨2, fun p => [⟨"co2", (bigEndian p : ℚ)⟩]⟩
  else if t = 0x07 then
    some ⟨2, fun p => [⟨"vdd", (bigEndian p : ℚ)⟩]⟩
  else if t = 0x1B then
    some ⟨4, fun p => [⟨"analog_uv", (twosComplement 32 (bigEndian p) : ℚ)⟩]⟩
  else if t = 0x1C then
    some ⟨2, fun p => [⟨"tvoc", (bigEndian p : ℚ)⟩]⟩
  else if t = 0x14 then
    some ⟨4, fun p => [⟨"pressure", (bigEndian p : ℚ) / 1000⟩]⟩
  else none

/-- The loop at its canonical fuel, one unit per remaining byte. -/
def run (raw : List Byte) (i : Nat) (m : List Measurement) : Outcome :=
  decodeLoop (raw.length - i) raw i m

/-- The specification's reading of the temperature payload `h l`: the
two's-complement value of the big-endian 16-bit word `256*h + l`. -/
def signed16 (h l : Byte) : Int :=
  if h.val < 0x80 then 256 * h.val + l.val else 256 * h.val + l.val - 65536

/-- The specification's reading of one accelerometer byte: its value as a
two's-complement 8-bit integer. -/
def signed8 (b : Byte) : Int :=
  if b.val < 0x80 then b.val else b.val - 256

/-- The ten type codes of the constant block of `main.go`. -/
def recognisedTags : List Byte :=
  [TYPE_TEMP, TYPE_RH, TYPE_ACC, TYPE_LIGHT, TYPE_MOTION, TYPE_CO2, TYPE_VDD,
    TYPE_EXT_ANALOG_UV, TYPE_TVOC, TYPE_PRESSURE]

/-- Move the index carried by an unknown-tag error `k` places to the right. -/
def DecodeError.shift (k : Nat) : DecodeError → DecodeError
  | .errUnknown t i => .errUnknown t (k + i)
  | e => e

/-- Move the index carried by a failing step `k` places to the right. -/
def Step.shift (k : Nat) : Step → Step
  | .fail e => .fail (e.shift k)
  | s => s

/-- Move the index carried by the error of an outcome `k` places to the right. -/
def Outcome.shift (k : Nat) : Outcome → Outcome
  | .ret ms err => .ret ms (err.map (DecodeError.shift k))
  | o => o

/-- Put the measurements `m` in front of those of a successful outcome. -/
def Outcome.prepend (m : List Measurement) : Outcome → Outcome
  | .ret ms none => .ret (m ++ ms) none
  | o => o

/-! ## Observations of the loop and the chunks of the wire format -/

/-- The loop of `decodeLoop`, observed at the cursor: the value of `i` with
which the loop is left through its condition `i < len(raw)`; `none` when the
call ends inside the loop or the fuel runs out. -/
def finalCursor : Nat → List Byte → Nat → Option Nat
  | 0, raw, i => if i < raw.length then none else some i
  | fuel + 1, raw, i =>
    if i < raw.length then
      match switchBody raw i with
      | .append _ adv => finalCursor fuel raw (i + adv + 1)
      | .fail _ => none
      | .panic => none
    else some i

/-- The loop of `decodeLoop`, observed at its iteration count: the number of
times the loop body is entered, whatever way the call ends. -/
def iterations : Nat → List Byte → Nat → Nat
  | 0, _, _ => 0
  | fuel + 1, raw, i =>
    if i < raw.length then
      match switchBody raw i with
      | .append _ adv => 1 + iterations fuel raw (i + adv + 1)
      | .fail _ => 1
      | .panic => 1
    else 0

/-- A chunk of the wire format: a tag byte and the payload bytes after it. -/
structure Chunk where
  tag : Byte
  payload : List Byte
  deriving DecidableEq, Repr

/-- The bytes of a chunk on the wire: the tag, then the payload. -/
def Chunk.bytes (c : Chunk) : List Byte :=
  c.tag :: c.payload

/-- A chunk is complete when its tag is a row of the field table and its
payload has exactly the width of that row. -/
def Chunk.complete (c : Chunk) : Bool :=
  match fieldTable c.tag with
  | some d => c.payload.length == d.width
  | none => false

/-- The measurements the field table gives for a chunk. -/
def Chunk.measurements (c : Chunk) : List Measurement :=
  match fieldTable c.tag with
  | some d => d.measure c.payload
  | none => []

/-! ## Names -/

/-- The measurement name(s) a type code appends in the switch of `Decode`. -/
def tagNames (t : Byte) : List String :=
  if t = TYPE_TEMP then ["temperature"]
  else if t = TYPE_RH then ["humidity"]
  else if t = TYPE_ACC then ["acc_x", "acc_y", "acc_z"]
  else if t = TYPE_LIGHT then ["light"]
  else if t = TYPE_MOTION then ["motion"]
  else if t = TYPE_CO2 then ["co2"]
  else if t = TYPE_VDD then ["vdd"]
  else if t = TYPE_EXT_ANALOG_UV then ["analog_uv"]
  else if t = TYPE_TVOC then ["tvoc"]
  else if t = TYPE_PRESSURE then ["pressure"]
  else []

/-- The fixed vocabulary of measurement names. -/
def vocabulary : List String :=
  ["temperature", "humidity", "acc_x", "acc_y", "acc_z", "light", "motion", "co2", "vdd",
    "analog_uv", "tvoc", "pressure"]

/-! ## An encoder -/

/-- The byte with value `n % 256`. -/
def byteOfNat (n : Nat) : Byte :=
  ⟨n % 256, Nat.mod_lt n (by decide)⟩

/-- Byte number `k` of the word `n`, counted from the least significant. -/
def byteAt (n k : Nat) : Byte :=
  byteOfNat (n / 256 ^ k)

/-- The `w`-bit pattern of the integer `z`, two's complement for a negative
`z`. -/
def patternOf (w : Nat) (z : Int) : Nat :=
  (z % 2 ^ w).toNat

/-- An encoder for single measurements, the inverse of the field table read by
name: the tag (for an accelerometer axis only in front of acc_x) and the
payload bytes whose transform is the value. -/
def encodeOne (m : Measurement) : List Byte :=
  if m.Name = "temperature" then
    [TYPE_TEMP, byteAt (patternOf 16 (m.Value * 10).num) 1,
      byteAt (patternOf 16 (m.Value * 10).num) 0]
  else if m.Name = "humidity" then [TYPE_RH, byteAt (patternOf 8 m.Value.num) 0]
  else if m.Name = "acc_x" then [TYPE_ACC, byteAt (patternOf 8 (m.Value * 63).num) 0]
  else if m.Name = "acc_y" then [byteAt (patternOf 8 (m.Value * 63).num) 0]
  else if m.Name = "acc_z" then [byteAt (patternOf 8 (m.Value * 63).num) 0]
  else if m.Name = "light" then
    [TYPE_LIGHT, byteAt (patternOf 16 m.Value.num) 1, byteAt (patternOf 16 m.Value.num) 0]
  else if m.Name = "motion" then [TYPE_MOTION, byteAt (patternOf 8 m.Value.num) 0]
  else if m.Name = "co2" then
    [TYPE_CO2, byteAt (patternOf 16 m.Value.num) 1, byteAt (patternOf 16 m.Value.num) 0]
  else if m.Name = "vdd" then
    [TYPE_VDD, byteAt (patternOf 16 m.Value.num) 1, byteAt (patternOf 16 m.Value.num) 0]
  else if m.Name = "analog_uv" then
    [TYPE_EXT_ANALOG_UV, byteAt (patternOf 32 m.Value.num) 3,
      byteAt (patternOf 32 m.Value.num) 2, byteAt (patternOf 32 m.Value.num) 1,
      byteAt (patternOf 32 m.Value.num) 0]
  else if m.Name = "tvoc" then
    [TYPE_TVOC, byteAt (patternOf 16 m.Value.num) 1, byteAt (patternOf 16 m.Value.num) 0]
  else if m.Name = "pressure" then
    [TYPE_PRESSURE, byteAt (patternOf 32 (m.Value * 1000).num) 3,
      byteAt (patternOf 32 (m.Value * 1000).num) 2,
      byteAt (patternOf 32 (m.Value * 1000).num) 1,
      byteAt (patternOf 32 (m.Value * 1000).num) 0]
  else []

/-- The encoder on a measurement sequence. -/
def encode (ms : List Measurement) : List Byte :=
  ms.flatMap encodeOne

/-! ## Error texts and the transport codec -/

/-- An upper-case hexadecimal digit, as `%X` prints it. -/
def hexDigit (n : Nat) : Char :=
  if n < 10 then Char.ofNat (48 + n) else Char.ofNat (55 + n)

/-- The verb `%02X` of `fmt` on a byte. -/
def hex02 (b : Byte) : String :=
  String.mk [hexDigit (b.val / 16), hexDigit (b.val % 16)]

/-- The text of an error of `Decode`, as its `Error()` method gives it:
`fmt.Errorf("base64 decode error: %w", err)`, `errors.New("empty payload")`,
`errShort`, and `fmt.Errorf("%w: 0x%02X at index %d", errUnknown, raw[i], i)`. -/
def DecodeError.message : DecodeError → String
  | .base64 cause => "base64 decode error: " ++ cause
  | .emptyPayload => "empty payload"
  | .errShort => "payload truncated while decoding field"
  | .errUnknown t i => "unknown sensor type: 0x" ++ hex02 t ++ " at index " ++ toString i

/-- Modelled from the spec: the value of a character of the Transport Codec's
alphabet of 64 printable characters (`A`-`Z`, `a`-`z`, `0`-`9`, `+`, `/`), the
alphabet of the library call `base64.StdEncoding`, which is outside the
repository. -/
def b64Value (c : Char) : Option Nat :=
  if 65 ≤ c.toNat ∧ c.toNat ≤ 90 then some (c.toNat - 65)
  else if 97 ≤ c.toNat ∧ c.toNat ≤ 122 then some (c.toNat - 97 + 26)
  else if 48 ≤ c.toNat ∧ c.toNat ≤ 57 then some (c.toNat - 48 + 52)
  else if c.toNat = 43 then some 62
  else if c.toNat = 47 then some 63
  else none

/-- Modelled from the spec: the Transport Codec on quanta of four characters,
three bytes each; the last quantum may end in one or two padding characters
`=` (code 61).  `none` for a wrong alphabet, incorrect padding or an invalid
length. -/
def decodeQuanta : List Char → Option (List Byte)
  | [] => some []
  | [a, b, c, d] =>
    match b64Value a, b64Value b with
    | some x, some y =>
      if c.toNat = 61 ∧ d.toNat = 61 then some [byteOfNat (x * 4 + y / 16)]
      else
        match b64Value c with
        | some z =>
          if d.toNat = 61 then
            some [byteOfNat (x * 4 + y / 16), byteOfNat (y % 16 * 16 + z / 4)]
          else
            match b64Value d with
            | some w =>
              some [byteOfNat (x * 4 + y / 16), byteOfNat (y % 16 * 16 + z / 4),
                byteOfNat (z % 4 * 64 + w)]
            | none => none
        | none => none
    | _, _ => none
  | a :: b :: c :: d :: rest =>
    match b64Value a, b64Value b, b64Value c, b64Value d, decodeQuanta rest with
    | some x, some y, some z, some w, some bs =>
      some (byteOfNat (x * 4 + y / 16) :: byteOfNat (y % 16 * 16 + z / 4) ::
        byteOfNat (z % 4 * 64 + w) :: bs)
    | _, _, _, _, _ => none
  | _ => none

/-- Modelled from the spec: the Transport Codec `decode_text`, standing for
the library call `base64.StdEncoding.DecodeString`: carriage returns and line
feeds are skipped, the rest is decoded by quanta.  The error text is the
library's without its byte offset. -/
def stdDecodeString (s : String) : Except String (List Byte) :=
  match decodeQuanta (s.toList.filter (fun c => c.toNat ≠ 13 ∧ c.toNat ≠ 10)) with
  | some bs => .ok bs
  | none => .error "illegal base64 data"

/-! ## Byte assembly -/

theorem bigEndian_one (b : Byte) : bigEndian [b] = b.val := by
  simp [bigEndian]

theorem bigEndian_two (h l : Byte) : bigEndian [h, l] = 256 * h.val + l.val := by
  simp [bigEndian]

theorem bigEndian_four (b3 b2 b1 b0 : Byte) :
    bigEndian [b3, b2, b1, b0]
      = b3.val * 2 ^ 24 + b2.val * 2 ^ 16 + b1.val * 2 ^ 8 + b0.val := by
  simp [bigEndian]; ring

theorem u16_eq (h l : Byte) : u16 h l = 256 * h.val + l.val := by
  have hh := h.isLt
  have hl := l.isLt
  have e : (h.val <<< 8) % 2 ^ 16 = 2 ^ 8 * h.val := by
    rw [Nat.shiftLeft_eq, Nat.mod_eq_of_lt (by omega)]; ring
  rw [u16, e, ← Nat.mul_add_lt_is_or (by omega)]

theorem int16Word_eq (h l : Byte) : int16Word h l = 256 * h.val + l.val :=
  u16_eq h l

theorem u32_eq (b3 b2 b1 b0 : Byte) :
    u32 b3 b2 b1 b0 = b3.val * 2 ^ 24 + b2.val * 2 ^ 16 + b1.val * 2 ^ 8 + b0.val := by
  have h3 := b3.isLt
  have h2 := b2.isLt
  have h1 := b1.isLt
  have h0 := b0.isLt
  have e3 : (b3.val <<< 24) % 2 ^ 32 = 2 ^ 24 * b3.val := by
    rw [Nat.shiftLeft_eq, Nat.mod_eq_of_lt (by omega)]; ring
  have e2 : (b2.val <<< 16) % 2 ^ 32 = b2.val * 2 ^ 16 := by
    rw [Nat.shiftLeft_eq, Nat.mod_eq_of_lt (by omega)]
  have e1 : (b1.val <<< 8) % 2 ^ 32 = b1.val * 2 ^ 8 := by
    rw [Nat.shiftLeft_eq, Nat.mod_eq_of_lt (by omega)]
  rw [u32, e3, e2, e1, ← Nat.mul_add_lt_is_or (by omega)]
  have s2 : 2 ^ 24 * b3.val + b2.val * 2 ^ 16 = 2 ^ 16 * (2 ^ 8 * b3.val + b2.val) := by ring
  rw [s2, ← Nat.mul_add_lt_is_or (by omega)]
  have s1 : 2 ^ 16 * (2 ^ 8 * b3.val + b2.val) + b1.val * 2 ^ 8
      = 2 ^ 8 * (2 ^ 16 * b3.val + 2 ^ 8 * b2.val + b1.val) := by ring
  rw [s1, ← Nat.mul_add_lt_is_or (by omega)]
  ring

theorem toSigned_eq (w n : Nat) (h : n < 2 ^ w) : toSigned w n = twosComplement w n := by
  simp [toSigned, twosComplement, Nat.mod_eq_of_lt h]

theorem temp_value_eq (h l : Byte) :
    toSigned 16 (int16Word h l) = twosComplement 16 (bigEndian [h, l]) := by
  have hh := h.isLt
  have hl := l.isLt
  rw [int16Word_eq, bigEndian_two, toSigned_eq _ _ (by omega)]

theorem int8_eq (b : Byte) : int8 b = twosComplement 8 (bigEndian [b]) := by
  have hb := b.isLt
  rw [int8, bigEndian_one, toSigned_eq _ _ (by omega)]

theorem i32_eq (b3 b2 b1 b0 : Byte) :
    i32 b3 b2 b1 b0 = twosComplement 32 (bigEndian [b3, b2, b1, b0]) := by
  have h3 := b3.isLt
  have h2 := b2.isLt
  have h1 := b1.isLt
  have h0 := b0.isLt
  rw [i32, bigEndian_four, u32_eq, toSigned_eq _ _ (by omega)]

/-! ## The switch against the field table -/

theorem window_succ (raw : List Byte) (k n : Nat) (h : k < raw.length) :
    (raw.drop k).take (n + 1) = raw[k] :: (raw.drop (k + 1)).take n := by
  rw [List.drop_eq_getElem_cons h, List.take_succ_cons]

theorem window_one (raw : List Byte) (i : Nat) (h : i + 1 < raw.length) :
    ∃ b, raw[i+1]? = some b ∧ (raw.drop (i + 1)).take 1 = [b] := by
  refine ⟨raw[i+1], List.getElem?_eq_getElem h, ?_⟩
  rw [window_succ raw _ _ h, List.take_zero]

theorem window_two (raw : List Byte) (i : Nat) (h : i + 2 < raw.length) :
    ∃ a b, raw[i+1]? = some a ∧ raw[i+2]? = some b ∧ (raw.drop (i + 1)).take 2 = [a, b] := by
  have h1 : i + 1 < raw.length := by omega
  refine ⟨raw[i+1], raw[i+2], List.getElem?_eq_getElem h1, List.getElem?_eq_getElem h, ?_⟩
  rw [window_succ raw _ _ h1, window_succ raw _ _ (by omega : i + 1 + 1 < raw.length),
    List.take_zero]

theorem window_three (raw : List Byte) (i : Nat) (h : i + 3 < raw.length) :
    ∃ a b c, raw[i+1]? = some a ∧ raw[i+2]? = some b ∧ raw[i+3]? = some c ∧
      (raw.drop (i + 1)).take 3 = [a, b, c] := by
  have h1 : i + 1 < raw.length := by omega
  have h2 : i + 2 < raw.length := by omega
  refine ⟨raw[i+1], raw[i+2], raw[i+3], List.getElem?_eq_getElem h1,
    List.getElem?_eq_getElem h2, List.getElem?_eq_getElem h, ?_⟩
  rw [window_succ raw _ _ h1, window_succ raw _ _ (by omega : i + 1 + 1 < raw.length),
    window_succ raw _ _ (by omega : i + 1 + 1 + 1 < raw.length), List.take_zero]

theorem window_four (raw : List Byte) (i : Nat) (h : i + 4 < raw.length) :
    ∃ a b c d, raw[i+1]? = some a ∧ raw[i+2]? = some b ∧ raw[i+3]? = some c ∧
      raw[i+4]? = some d ∧ (raw.drop (i + 1)).take 4 = [a, b, c, d] := by
  have h1 : i + 1 < raw.length := by omega
  have h2 : i + 2 < raw.length := by omega
  have h3 : i + 3 < raw.length := by omega
  refine ⟨raw[i+1], raw[i+2], raw[i+3], raw[i+4], List.getElem?_eq_getElem h1,
    List.getElem?_eq_getElem h2, List.getElem?_eq_getElem h3, List.getElem?_eq_getElem h, ?_⟩
  rw [window_succ raw _ _ h1, window_succ raw _ _ (by omega : i + 1 + 1 < raw.length),
    window_succ raw _ _ (by omega : i + 1 + 1 + 1 < raw.length),
    window_succ raw _ _ (by omega : i + 1 + 1 + 1 + 1 < raw.length), List.take_zero]

/-- One pass through the switch, read off the field table: an unknown byte
fails with its value and index, a known tag whose payload does not fit fails
with `errShort`, and otherwise the table's transform of the payload window is
appended and the cursor moves by the width. -/
theorem switchBody_eq (raw : List Byte) (i : Nat) :
    switchBody raw i =
      match raw[i]? with
      | none => .panic
      | some t =>
        match fieldTable t with
        | none => .fail (.errUnknown t i)
        | some d =>
          if i + d.width < raw.length then
            .append (d.measure ((raw.drop (i + 1)).take d.width)) d.width
          else .fail .errShort := by
  unfold switchBody
  cases hti : raw[i]? with
  | none => rfl
  | some t =>
    simp only [fieldTable, TYPE_TEMP, TYPE_RH, TYPE_ACC, TYPE_LIGHT, TYPE_MOTION, TYPE_CO2,
      TYPE_VDD, TYPE_EXT_ANALOG_UV, TYPE_TVOC, TYPE_PRESSURE, have_]
    by_cases h1 : t = 1
    · simp only [h1, if_true]
      by_cases hl : i + 2 < raw.length
      · obtain ⟨a, b, ha, hb, hw⟩ := window_two raw i hl
        simp [hl, ha, hb, hw, temp_value_eq]
      · simp [hl]
    simp only [h1, if_false]
    by_cases h2 : t = 2
    · simp only [h2, if_true]
      by_cases hl : i + 1 < raw.length
      · obtain ⟨a, ha, hw⟩ := window_one raw i hl
        simp [hl, ha, hw, bigEndian_one]
      · simp [hl]
    simp only [h2, if_false]
    by_cases h3 : t = 3
    · simp only [h3, if_true]
      by_cases hl : i + 3 < raw.length
      · obtain ⟨a, b, c, ha, hb, hc, hw⟩ := window_three raw i hl
        simp [hl, ha, hb, hc, hw, int8_eq]
      · simp [hl]
    simp only [h3, if_false]
    by_cases h4 : t = 4
    · simp only [h4, if_true]
      by_cases hl : i + 2 < raw.length
      · obtain ⟨a, b, ha, hb, hw⟩ := window_two raw i hl
        simp [hl, ha, hb, hw, u16_eq, bigEndian_two]
      · simp [hl]
    simp only [h4, if_false]
    by_cases h5 : t = 5
    · simp only [h5, if_true]
      by_cases hl : i + 1 < raw.length
      · obtain ⟨a, ha, hw⟩ := window_one raw i hl
        simp [hl, ha, hw, bigEndian_one]
      · simp [hl]
    simp only [h5, if_false]
    by_cases h6 : t = 6
    · simp only [h6, if_true]
      by_cases hl : i + 2 < raw.length
      · obtain ⟨a, b, ha, hb, hw⟩ := window_two raw i hl
        simp [hl, ha, hb, hw, u16_eq, bigEndian_two]
      · simp [hl]
    simp only [h6, if_false]
    by_cases h7 : t = 7
    · simp only [h7, if_true]
      by_cases hl : i + 2 < raw.length
      · obtain ⟨a, b, ha, hb, hw⟩ := window_two raw i hl
        simp [hl, ha, hb, hw, u16_eq, bigEndian_two]
      · simp [hl]
    simp only [h7, if_false]
    by_cases h27 : t = 27
    · simp only [h27, if_true]
      by_cases hl : i + 4 < raw.length
      · obtain ⟨a, b, c, d, ha, hb, hc, hd, hw⟩ := window_four raw i hl
        simp [hl, ha, hb, hc, hd, hw, i32_eq]
      · simp [hl]
    simp only [h27, if_false]
    by_cases h28 : t = 28
    · simp only [h28, if_true]
      by_cases hl : i + 2 < raw.length
      · obtain ⟨a, b, ha, hb, hw⟩ := window_two raw i hl
        simp [hl, ha, hb, hw, u16_eq, bigEndian_two]
      · simp [hl]
    simp only [h28, if_false]
    by_cases h20 : t = 20
    · simp only [h20, if_true]
      by_cases hl : i + 4 < raw.length
      · obtain ⟨a, b, c, d, ha, hb, hc, hd, hw⟩ := window_four raw i hl
        simp [hl, ha, hb, hc, hd, hw, u32_eq, bigEndian_four]
      · simp [hl]
    simp only [h20, if_false]

/-! ## The loop -/

theorem decodeLoop_fuel (f : Nat) : ∀ (g : Nat) (raw : List Byte) (i : Nat) (m : List Measurement),
    raw.length - i ≤ f → raw.length - i ≤ g → decodeLoop f raw i m = decodeLoop g raw i m := by
  induction f with
  | zero =>
    intro g raw i m hf _
    have hi : ¬ i < raw.length := by omega
    cases g <;> simp [decodeLoop, hi]
  | succ f ih =>
    intro g raw i m hf hg
    by_cases hi : i < raw.length
    · cases g with
      | zero => omega
      | succ g =>
        simp only [decodeLoop, hi, if_true]
        cases switchBody raw i with
        | append ms adv => exact ih g raw _ _ (by omega) (by omega)
        | fail e => rfl
        | panic => rfl
    · cases g <;> simp [decodeLoop, hi]

theorem run_eq (raw : List Byte) (i : Nat) (m : List Measurement) :
    run raw i m =
      if i < raw.length then
        match switchBody raw i with
        | .append ms adv => run raw (i + adv + 1) (m ++ ms)
        | .fail e => .ret [] (some e)
        | .panic => .panic
      else .ret m none := by
  unfold run
  by_cases hi : i < raw.length
  · obtain ⟨k, hk⟩ : ∃ k, raw.length - i = k + 1 := ⟨raw.length - i - 1, by omega⟩
    rw [hk]
    simp only [decodeLoop, hi, if_true]
    cases switchBody raw i with
    | append ms adv => exact decodeLoop_fuel _ _ _ _ _ (by omega) (by omega)
    | fail e => rfl
    | panic => rfl
  · have h0 : raw.length - i = 0 := by omega
    rw [h0]; simp [decodeLoop, hi]

theorem decodeRaw_eq_run (raw : List Byte) (h : raw ≠ []) : decodeRaw raw = run raw 0 [] := by
  have hl : raw.length ≠ 0 := by simpa using h
  simp [decodeRaw, run, hl]

theorem switchBody_append_lt {raw : List Byte} {i : Nat} {ms : List Measurement} {adv : Nat}
    (h : switchBody raw i = .append ms adv) : i + adv < raw.length := by
  rw [switchBody_eq] at h
  cases hti : raw[i]? with
  | none => simp [hti] at h
  | some t =>
    cases hd : fieldTable t with
    | none => simp [hti, hd] at h
    | some d =>
      by_cases hl : i + d.width < raw.length
      · simp [hti, hd, hl] at h
        omega
      · simp [hti, hd, hl] at h

theorem switchBody_no_panic {raw : List Byte} {i : Nat} (hi : i < raw.length) :
    switchBody raw i ≠ .panic := by
  rw [switchBody_eq, List.getElem?_eq_getElem hi]
  cases hd : fieldTable raw[i] with
  | none => simp [hd]
  | some d => by_cases hl : i + d.width < raw.length <;> simp [hd, hl]

theorem switchBody_shift (a b : List Byte) (j : Nat) :
    switchBody (a ++ b) (a.length + j) = (switchBody b j).shift a.length := by
  rw [switchBody_eq, switchBody_eq]
  have hget : (a ++ b)[a.length + j]? = b[j]? := by
    rw [List.getElem?_append_right (by omega)]; simp
  have hdrop : ∀ w, ((a ++ b).drop (a.length + j + 1)).take w = (b.drop (j + 1)).take w := by
    intro w
    rw [Nat.add_assoc, List.drop_append]
  rw [hget]
  cases hti : b[j]? with
  | none => rfl
  | some t =>
    cases hd : fieldTable t with
    | none => simp [hd, Step.shift, DecodeError.shift]
    | some d =>
      by_cases hl : j + d.width < b.length
      · have hl2 : a.length + j + d.width < a.length + b.length := by omega
        simp [hd, hl2, hl, hdrop, Step.shift]
      · have hl2 : ¬ a.length + j + d.width < a.length + b.length := by omega
        simp [hd, hl2, hl, Step.shift, DecodeError.shift]

theorem switchBody_extend {a : List Byte} (b : List Byte) {i : Nat} {ms : List Measurement}
    {adv : Nat} (h : switchBody a i = .append ms adv) :
    switchBody (a ++ b) i = .append ms adv := by
  have hlt := switchBody_append_lt h
  rw [switchBody_eq] at h ⊢
  have hi : i < a.length := by omega
  have hget : (a ++ b)[i]? = a[i]? := List.getElem?_append_left hi
  rw [hget]
  cases hti : a[i]? with
  | none => simp [hti] at h
  | some t =>
    cases hd : fieldTable t with
    | none => simp [hti, hd] at h
    | some d =>
      by_cases hl : i + d.width < a.length
      · simp only [hti, hd, hl, if_true] at h
        have hl2 : i + d.width < (a ++ b).length := by
          rw [List.length_append]; omega
        have hw : ((a ++ b).drop (i + 1)).take d.width = (a.drop (i + 1)).take d.width := by
          rw [List.drop_append_of_le_length (by omega),
            List.take_append_of_le_length (by rw [List.length_drop]; omega)]
        simp only [hd, hl2, if_true, hw]
        exact h
      · simp [hti, hd, hl] at h

theorem run_prepend (raw : List Byte) : ∀ (n i : Nat) (m : List Measurement),
    raw.length - i ≤ n → run raw i m = (run raw i []).prepend m := by
  intro n
  induction n with
  | zero =>
    intro i m hn
    have hi : ¬ i < raw.length := by omega
    rw [run_eq raw i m, run_eq raw i []]
    simp [hi, Outcome.prepend]
  | succ n ih =>
    intro i m hn
    rw [run_eq raw i m, run_eq raw i []]
    by_cases hi : i < raw.length
    · simp only [hi, if_true]
      cases hs : switchBody raw i with
      | append ms adv =>
        simp only []
        rw [ih _ (m ++ ms) (by omega), ih _ ([] ++ ms) (by omega)]
        cases run raw (i + adv + 1) [] with
        | ret xs err => cases err <;> simp [Outcome.prepend]
        | panic => rfl
        | diverge => rfl
      | fail e => rfl
      | panic => rfl
    · simp [hi, Outcome.prepend]

/-- The loop always returns, and it returns either measurements with no error
or an error with no measurements. -/
theorem run_total (raw : List Byte) : ∀ (n i : Nat) (m : List Measurement),
    raw.length - i ≤ n →
      (∃ ms, run raw i m = .ret ms none) ∨ (∃ e, run raw i m = .ret [] (some e)) := by
  intro n
  induction n with
  | zero =>
    intro i m hn
    have hi : ¬ i < raw.length := by omega
    rw [run_eq]
    exact Or.inl ⟨m, by simp [hi]⟩
  | succ n ih =>
    intro i m hn
    rw [run_eq]
    by_cases hi : i < raw.length
    · simp only [hi, if_true]
      cases hs : switchBody raw i with
      | append ms adv => exact ih _ _ (by omega)
      | fail e => exact Or.inr ⟨e, rfl⟩
      | panic => exact absurd hs (switchBody_no_panic hi)
    · exact Or.inl ⟨m, by simp [hi]⟩

/-- A successful walk over `a` is retraced step by step on `a ++ b` and leaves
the cursor exactly at `len(a)`. -/
theorem run_extend (a b : List Byte) : ∀ (n i : Nat) (m ms : List Measurement),
    a.length - i ≤ n → i ≤ a.length → run a i m = .ret ms none →
      run (a ++ b) i m = run (a ++ b) a.length ms := by
  intro n
  induction n with
  | zero =>
    intro i m ms hn hle h
    have hi : i = a.length := by omega
    subst hi
    rw [run_eq] at h
    simp at h
    rw [h]
  | succ n ih =>
    intro i m ms hn hle h
    by_cases hi : i < a.length
    · rw [run_eq] at h
      simp only [hi, if_true] at h
      have hi2 : i < (a ++ b).length := by rw [List.length_append]; omega
      rw [run_eq (a ++ b) i m]
      simp only [hi2, if_true]
      cases hs : switchBody a i with
      | append xs adv =>
        rw [hs] at h
        simp only [] at h
        have hlt := switchBody_append_lt hs
        rw [switchBody_extend b hs]
        exact ih _ _ _ (by omega) (by omega) h
      | fail e => rw [hs] at h; simp at h
      | panic => rw [hs] at h; simp at h
    · have hi : i = a.length := by omega
      subst hi
      rw [run_eq] at h
      simp at h
      rw [h]

/-- The walk over `a ++ b` from cursor `len(a) + j` is the walk over `b` from
cursor `j`, with the index of an unknown-tag error moved by `len(a)`. -/
theorem run_shift (a b : List Byte) : ∀ (n j : Nat) (m : List Measurement),
    b.length - j ≤ n → run (a ++ b) (a.length + j) m = (run b j m).shift a.length := by
  intro n
  induction n with
  | zero =>
    intro j m hn
    have hj : ¬ j < b.length := by omega
    have hj2 : ¬ a.length + j < (a ++ b).length := by rw [List.length_append]; omega
    rw [run_eq (a ++ b), run_eq b]
    simp only [hj, hj2, if_false]
    rfl
  | succ n ih =>
    intro j m hn
    rw [run_eq (a ++ b), run_eq b]
    by_cases hj : j < b.length
    · have hj2 : a.length + j < (a ++ b).length := by rw [List.length_append]; omega
      simp only [hj, hj2, if_true, switchBody_shift]
      cases hs : switchBody b j with
      | append xs adv =>
        simp only [Step.shift]
        have e : a.length + j + adv + 1 = a.length + (j + adv + 1) := by omega
        rw [e]
        exact ih _ _ (by omega)
      | fail e => rfl
      | panic => rfl
    · have hj2 : ¬ a.length + j < (a ++ b).length := by rw [List.length_append]; omega
      simp only [hj, hj2, if_false]
      rfl

/-- Decoding `a ++ b` after a successful decode of `a`: the walk over `b`, its
error index moved by `len(a)`, its measurements behind those of `a`. -/
theorem decodeRaw_append (a b : List Byte) (ms : List Measurement)
    (ha : decodeRaw a = .ret ms none) :
    decodeRaw (a ++ b) = ((run b 0 []).prepend ms).shift a.length := by
  have hne : a ≠ [] := by
    intro h; subst h; simp [decodeRaw] at ha
  have hne2 : a ++ b ≠ [] := by simp [hne]
  rw [decodeRaw_eq_run a hne] at ha
  rw [decodeRaw_eq_run _ hne2, run_extend a b _ 0 [] ms (le_refl _) (Nat.zero_le _) ha]
  have := run_shift a b _ 0 ms (le_refl _)
  rw [Nat.add_zero] at this
  rw [this, run_prepend b _ 0 ms (le_refl _)]

/-! ## Whole-buffer consequences -/

theorem fieldTable_none_iff (b : Byte) : fieldTable b = none ↔ b ∉ recognisedTags := by
  simp only [recognisedTags, TYPE_TEMP, TYPE_RH, TYPE_ACC, TYPE_LIGHT, TYPE_MOTION, TYPE_CO2,
    TYPE_VDD, TYPE_EXT_ANALOG_UV, TYPE_TVOC, TYPE_PRESSURE, fieldTable]
  by_cases h1 : b = 1
  · subst h1; simp
  simp only [h1, if_false]
  by_cases h2 : b = 2
  · subst h2; simp
  simp only [h2, if_false]
  by_cases h3 : b = 3
  · subst h3; simp
  simp only [h3, if_false]
  by_cases h4 : b = 4
  · subst h4; simp
  simp only [h4, if_false]
  by_cases h5 : b = 5
  · subst h5; simp
  simp only [h5, if_false]
  by_cases h6 : b = 6
  · subst h6; simp
  simp only [h6, if_false]
  by_cases h7 : b = 7
  · subst h7; simp
  simp only [h7, if_false]
  by_cases h27 : b = 27
  · subst h27; simp
  simp only [h27, if_false]
  by_cases h28 : b = 28
  · subst h28; simp
  simp only [h28, if_false]
  by_cases h20 : b = 20
  · subst h20; simp
  simp only [h20, if_false]
  simp [h1, h2, h3, h4, h5, h6, h7, h27, h28, h20]

theorem switchBody_head (t : Byte) (p : List Byte) :
    switchBody (t :: p) 0 =
      match fieldTable t with
      | none => .fail (.errUnknown t 0)
      | some d =>
        if d.width ≤ p.length then .append (d.measure (p.take d.width)) d.width
        else .fail .errShort := by
  rw [switchBody_eq]
  cases hd : fieldTable t with
  | none => simp [hd]
  | some d =>
    by_cases hl : d.width ≤ p.length
    · have hl2 : d.width < p.length + 1 := by omega
      simp [hd, hl, hl2]
    · have hl2 : ¬ d.width < p.length + 1 := by omega
      simp [hd, hl, hl2]

theorem run_single (t : Byte) (d : FieldDescriptor) (p : List Byte) (m : List Measurement)
    (ht : fieldTable t = some d) (hp : p.length = d.width) :
    run (t :: p) 0 m = .ret (m ++ d.measure p) none := by
  rw [run_eq, switchBody_head, ht]
  have hl : d.width ≤ p.length := by omega
  simp only [List.length_cons, Nat.zero_lt_succ, if_true, hl]
  rw [run_eq]
  have hn : ¬ 0 + p.length + 1 < (t :: p).length := by simp
  rw [← hp, if_neg hn, List.take_length]

theorem run_short (t : Byte) (d : FieldDescriptor) (p : List Byte) (m : List Measurement)
    (ht : fieldTable t = some d) (hp : p.length < d.width) :
    run (t :: p) 0 m = .ret [] (some .errShort) := by
  rw [run_eq, switchBody_head, ht]
  have hl : ¬ d.width ≤ p.length := by omega
  simp only [List.length_cons, Nat.zero_lt_succ, if_true, hl, if_false]

theorem run_unknown (b : Byte) (r : List Byte) (m : List Measurement)
    (hb : fieldTable b = none) :
    run (b :: r) 0 m = .ret [] (some (.errUnknown b 0)) := by
  rw [run_eq, switchBody_head, hb]
  simp only [List.length_cons, Nat.zero_lt_succ, if_true]

theorem decodeRaw_single (t : Byte) (d : FieldDescriptor) (p : List Byte)
    (ht : fieldTable t = some d) (hp : p.length = d.width) :
    decodeRaw (t :: p) = .ret (d.measure p) none := by
  rw [decodeRaw_eq_run _ (List.cons_ne_nil _ _), run_single t d p [] ht hp, List.nil_append]

theorem decodeRaw_concat (a b : List Byte) (msa msb : List Measurement)
    (ha : decodeRaw a = .ret msa none) (hb : decodeRaw b = .ret msb none) :
    decodeRaw (a ++ b) = .ret (msa ++ msb) none := by
  have hne : b ≠ [] := by
    intro h; subst h; simp [decodeRaw] at hb
  rw [decodeRaw_eq_run b hne] at hb
  rw [decodeRaw_append a b msa ha, hb]
  rfl

theorem decodeRaw_total (raw : List Byte) :
    (∃ ms, decodeRaw raw = .ret ms none) ∨ (∃ e, decodeRaw raw = .ret [] (some e)) := by
  by_cases h : raw = []
  · subst h
    exact Or.inr ⟨.emptyPayload, rfl⟩
  · rw [decodeRaw_eq_run raw h]
    exact run_total raw _ 0 [] (le_refl _)

/-- Spec reading of the temperature word: the two's-complement value of the
big-endian 16-bit word `256*h + l`. -/
theorem twosComplement_16 (h l : Byte) :
    twosComplement 16 (bigEndian [h, l])
      = if h.val < 0x80 then (256 * h.val + l.val : Int) else 256 * h.val + l.val - 65536 := by
  have hl := l.isLt
  rw [bigEndian_two, twosComplement]
  by_cases hh : h.val < 0x80
  · have : 256 * h.val + l.val < 2 ^ (16 - 1) := by norm_num; omega
    rw [if_pos hh, if_pos this]; push_cast; ring
  · have : ¬ 256 * h.val + l.val < 2 ^ (16 - 1) := by norm_num; omega
    rw [if_neg hh, if_neg this]; push_cast; ring

theorem twosComplement_8 (b : Byte) :
    twosComplement 8 (bigEndian [b]) = if b.val < 0x80 then (b.val : Int) else b.val - 256 := by
  rw [bigEndian_one, twosComplement]
  by_cases hh : b.val < 0x80
  · have : b.val < 2 ^ (8 - 1) := by norm_num; omega
    rw [if_pos hh, if_pos this]
  · have : ¬ b.val < 2 ^ (8 - 1) := by norm_num; omega
    rw [if_neg hh, if_neg this]; norm_num

/-! ## The claims -/

/-- Claim C1: for every recognised tag `t` (a row `d` of the field table) and
every payload `p` of exactly `width(t)` bytes, decoding the buffer `[t] ++ p`
succeeds and returns exactly the measurement(s) the field table's transform
gives for `p`. -/
theorem single_field_decodes (t : Byte) (d : FieldDescriptor) (p : List Byte)
    (ht : fieldTable t = some d) (hp : p.length = d.width) :
    decodeRaw (t :: p) = .ret (d.measure p) none :=
  decodeRaw_single t d p ht hp

theorem single_field_decodes_witness :
    decodeRaw [0x01, 0x00, 0xD7] = .ret [⟨"temperature", 43 / 2⟩] none ∧
    decodeRaw [0x02, 0x32] = .ret [⟨"humidity", 50⟩] none ∧
    decodeRaw [0x04, 0x0A, 0x00] = .ret [⟨"light", 2560⟩] none :=
  ⟨(single_field_decodes 0x01 _ [0x00, 0xD7] rfl rfl).trans
      (by simp [bigEndian, twosComplement, Fin.coe_ofNat_eq_mod]; norm_num),
   (single_field_decodes 0x02 _ [0x32] rfl rfl).trans
      (by simp [bigEndian, Fin.coe_ofNat_eq_mod]),
   (single_field_decodes 0x04 _ [0x0A, 0x00] rfl rfl).trans
      (by simp [bigEndian, Fin.coe_ofNat_eq_mod])⟩

/-- Claim C2: for every two byte sequences `a` and `b` on which decode
succeeds, decode of `a ++ b` succeeds and equals the measurements of `a`
followed by the measurements of `b`. -/
theorem decode_concat (a b : List Byte) (msa msb : List Measurement)
    (ha : decodeRaw a = .ret msa none) (hb : decodeRaw b = .ret msb none) :
    decodeRaw (a ++ b) = .ret (msa ++ msb) none :=
  decodeRaw_concat a b msa msb ha hb

theorem decode_concat_witness :
    decodeRaw ([0x01, 0x00, 0xD7] ++ [0x02, 0x32])
      = .ret ([⟨"temperature", 43 / 2⟩] ++ [⟨"humidity", 50⟩]) none :=
  decode_concat [0x01, 0x00, 0xD7] [0x02, 0x32] [⟨"temperature", 43 / 2⟩] [⟨"humidity", 50⟩]
    (by
      simp [decodeRaw, decodeLoop, switchBody, have_, TYPE_TEMP, int16Word, toSigned,
        Fin.coe_ofNat_eq_mod]
      norm_num)
    (by
      simp [decodeRaw, decodeLoop, switchBody, have_, TYPE_TEMP, TYPE_RH,
        Fin.coe_ofNat_eq_mod])

/-- Claim C3, refuted as stated: the buffer `01 00 D7`, one tag followed by
exactly its two payload bytes and no trailing byte, is not rejected as
truncated; it decodes to temperature 21.5. -/
theorem exact_width_buffer_decodes :
    decodeRaw [0x01, 0x00, 0xD7] ≠ .ret [] (some .errShort) ∧
    decodeRaw [0x01, 0x00, 0xD7] = .ret [⟨"temperature", 43 / 2⟩] none := by
  have h : decodeRaw [0x01, 0x00, 0xD7] = .ret [⟨"temperature", 43 / 2⟩] none := by
    simp [decodeRaw, decodeLoop, switchBody, have_, TYPE_TEMP, int16Word, toSigned,
      Fin.coe_ofNat_eq_mod]
    norm_num
  exact ⟨by rw [h]; simp, h⟩

/-- Claim C3, amended: for every recognised tag `t` and every payload `p` of
exactly `width(t)` bytes, decode on `[t] ++ p` does not fail with
`TruncatedPayload` but succeeds, so the last byte of a field's payload may be
the last byte of the buffer; the buffer is truncated when fewer than
`width(t)` of these bytes follow the tag. -/
theorem exact_width_not_truncated (t : Byte) (d : FieldDescriptor) (p : List Byte)
    (ht : fieldTable t = some d) (hp : p.length = d.width) :
    decodeRaw (t :: p) ≠ .ret [] (some .errShort) ∧
    (∃ ms, decodeRaw (t :: p) = .ret ms none) ∧
    ∀ k, k < d.width → decodeRaw (t :: p.take k) = .ret [] (some .errShort) := by
  have h := decodeRaw_single t d p ht hp
  refine ⟨by rw [h]; simp, ⟨_, h⟩, ?_⟩
  intro k hk
  rw [decodeRaw_eq_run _ (List.cons_ne_nil _ _)]
  exact run_short t d _ [] ht (by rw [List.length_take]; omega)

theorem exact_width_not_truncated_witness :
    decodeRaw [0x04, 0x0A, 0x00] ≠ .ret [] (some .errShort) ∧
    (∃ ms, decodeRaw [0x04, 0x0A, 0x00] = .ret ms none) ∧
    ∀ k, k < 2 → decodeRaw (0x04 :: [0x0A, 0x00].take k) = .ret [] (some .errShort) :=
  exact_width_not_truncated 0x04 _ [0x0A, 0x00] rfl rfl

/-- Claim C4: for every byte sequence `a` that is empty or decodes
successfully, every recognised tag `t` and every byte sequence `p` shorter
than `width(t)`, decode of `a ++ [t] ++ p` fails with `TruncatedPayload` and
returns no measurements. -/
theorem short_payload_truncated (a : List Byte) (t : Byte) (d : FieldDescriptor) (p : List Byte)
    (ha : a = [] ∨ ∃ ms, decodeRaw a = .ret ms none)
    (ht : fieldTable t = some d) (hp : p.length < d.width) :
    decodeRaw (a ++ t :: p) = .ret [] (some .errShort) := by
  rcases ha with ha | ⟨ms, ha⟩
  · subst ha
    rw [List.nil_append, decodeRaw_eq_run _ (List.cons_ne_nil _ _)]
    exact run_short t d p [] ht hp
  · rw [decodeRaw_append a _ ms ha, run_short t d p [] ht hp]
    rfl

theorem short_payload_truncated_witness :
    decodeRaw ([] ++ [0x01, 0x00]) = .ret [] (some .errShort) ∧
    decodeRaw ([0x02, 0x32] ++ [0x1B, 0x00, 0x01, 0x02]) = .ret [] (some .errShort) :=
  ⟨short_payload_truncated [] 0x01 _ [0x00] (Or.inl rfl) rfl (by decide),
   short_payload_truncated [0x02, 0x32] 0x1B _ [0x00, 0x01, 0x02]
    (Or.inr ⟨[⟨"humidity", 50⟩], by
      simp [decodeRaw, decodeLoop, switchBody, have_, TYPE_TEMP, TYPE_RH,
        Fin.coe_ofNat_eq_mod]⟩)
    rfl (by decide)⟩

/-- Claim C5: for every non-empty buffer whose first byte `b` is not one of the
ten recognised tags, whatever bytes follow, decode fails with `UnknownTag`
carrying exactly the byte `b` and offset 0. -/
theorem unknown_first_byte (b : Byte) (rest : List Byte) (hb : b ∉ recognisedTags) :
    decodeRaw (b :: rest) = .ret [] (some (.errUnknown b 0)) := by
  rw [decodeRaw_eq_run _ (List.cons_ne_nil _ _)]
  exact run_unknown b rest [] ((fieldTable_none_iff b).2 hb)

theorem unknown_first_byte_witness :
    (0xFF : Byte) ∉ recognisedTags ∧
    decodeRaw [0xFF] = .ret [] (some (.errUnknown 0xFF 0)) :=
  ⟨by decide, unknown_first_byte 0xFF [] (by decide)⟩

/-- Claim C6: for every byte sequence `a` on which decode succeeds, every byte
`b` that is not a recognised tag and every byte sequence `r`, decode of
`a ++ [b] ++ r` fails with `UnknownTag(b, len(a))`, and the measurements
produced from `a` are not returned. -/
theorem unknown_after_decoded (a : List Byte) (ms : List Measurement) (b : Byte) (r : List Byte)
    (ha : decodeRaw a = .ret ms none) (hb : b ∉ recognisedTags) :
    decodeRaw (a ++ b :: r) = .ret [] (some (.errUnknown b a.length)) := by
  rw [decodeRaw_append a _ ms ha, run_unknown b r [] ((fieldTable_none_iff b).2 hb)]
  rfl

theorem unknown_after_decoded_witness :
    decodeRaw ([0x01, 0x00, 0xD7] ++ [0xFF]) = .ret [] (some (.errUnknown 0xFF 3)) :=
  unknown_after_decoded [0x01, 0x00, 0xD7] [⟨"temperature", 43 / 2⟩] 0xFF []
    (by
      simp [decodeRaw, decodeLoop, switchBody, have_, TYPE_TEMP, int16Word, toSigned,
        Fin.coe_ofNat_eq_mod]
      norm_num)
    (by decide)

/-- Claim C7: decode on the zero-length byte buffer fails with `EmptyPayload`
and returns no measurements; the loop is not entered, whatever its fuel. -/
theorem empty_buffer_fails :
    decodeRaw [] = .ret [] (some .emptyPayload) ∧
    ∀ decodeString b64, decodeString b64 = Except.ok [] →
      Decode decodeString b64 = .ret [] (some .emptyPayload) := by
  refine ⟨rfl, ?_⟩
  intro decodeString b64 h
  simp [Decode, h, decodeRaw]

theorem empty_buffer_fails_witness :
    Decode (fun _ => Except.ok []) "" = .ret [] (some .emptyPayload) :=
  empty_buffer_fails.2 (fun _ => Except.ok []) "" rfl

/-- Claim C8: for every transport codec and every input string, `Decode`
returns either a measurement sequence with no error or an error with no
measurements; it neither panics nor runs out of loop fuel. -/
theorem decode_all_or_nothing (decodeString : String → Except String (List Byte))
    (b64 : String) :
    (∃ ms, Decode decodeString b64 = .ret ms none) ∨
    (∃ e, Decode decodeString b64 = .ret [] (some e)) := by
  unfold Decode
  cases decodeString b64 with
  | error err => exact Or.inr ⟨.base64 err, rfl⟩
  | ok raw => exact decodeRaw_total raw

/-- Claim C9: for all bytes `h` and `l`, the Go expression
`int16(h)<<8 | int16(l)` has the two's-complement value `s` of the big-endian
word `256*h + l` (`s = 256*h + l` when `h < 0x80`, `256*h + l - 65536`
otherwise), and the temperature field `01 h l`, alone or followed by any
buffer `c` that decodes, decodes to the value `s/10`. -/
theorem temperature_twos_complement (h l : Byte) (c : List Byte) (ms : List Measurement)
    (hc : decodeRaw c = .ret ms none) :
    toSigned 16 (int16Word h l) = signed16 h l ∧
    decodeRaw [0x01, h, l] = .ret [⟨"temperature", (signed16 h l : ℚ) / 10⟩] none ∧
    decodeRaw (0x01 :: h :: l :: c)
      = .ret (⟨"temperature", (signed16 h l : ℚ) / 10⟩ :: ms) none := by
  have hs : twosComplement 16 (bigEndian [h, l]) = signed16 h l := twosComplement_16 h l
  have h1 : decodeRaw [0x01, h, l] = .ret [⟨"temperature", (signed16 h l : ℚ) / 10⟩] none := by
    rw [decodeRaw_single 0x01 _ [h, l] rfl rfl]
    simp only [hs]
  refine ⟨by rw [temp_value_eq, hs], h1, ?_⟩
  exact decodeRaw_concat [0x01, h, l] c _ ms h1 hc

theorem temperature_twos_complement_witness :
    toSigned 16 (int16Word 0xFF 0xFF) = -1 ∧
    decodeRaw [0x01, 0xFF, 0xFF] = .ret [⟨"temperature", -1 / 10⟩] none ∧
    decodeRaw [0x01, 0xFF, 0xFF, 0x02, 0x32]
      = .ret [⟨"temperature", -1 / 10⟩, ⟨"humidity", 50⟩] none ∧
    decodeRaw [0x01, 0x80, 0x00] = .ret [⟨"temperature", -16384 / 5⟩] none := by
  have hb : decodeRaw [0x02, 0x32] = .ret [⟨"humidity", 50⟩] none := by
    simp [decodeRaw, decodeLoop, switchBody, have_, TYPE_TEMP, TYPE_RH, Fin.coe_ofNat_eq_mod]
  have e1 : signed16 0xFF 0xFF = -1 := by decide
  have e2 : signed16 0x80 0x00 = -32768 := by decide
  have w1 := temperature_twos_complement 0xFF 0xFF [0x02, 0x32] _ hb
  have w2 := temperature_twos_complement 0x80 0x00 [0x02, 0x32] _ hb
  rw [e1] at w1
  rw [e2] at w2
  refine ⟨w1.1, ?_, ?_, ?_⟩
  · rw [w1.2.1]; norm_num
  · rw [w1.2.2]; norm_num
  · rw [w2.2.1]; norm_num

/-- Claim C10: for all bytes `x`, `y`, `z`, the acceleration field `03 x y z`,
alone or followed by any buffer `c` that decodes, produces exactly three
measurements, in the order acc_x, acc_y, acc_z, with values `signed8(x)/63`,
`signed8(y)/63`, `signed8(z)/63`; the code's `int8` is `signed8` on each
byte. -/
theorem acceleration_three_axes (x y z : Byte) (c : List Byte) (ms : List Measurement)
    (hc : decodeRaw c = .ret ms none) :
    (int8 x = signed8 x ∧ int8 y = signed8 y ∧ int8 z = signed8 z) ∧
    decodeRaw [0x03, x, y, z]
      = .ret [⟨"acc_x", (signed8 x : ℚ) / 63⟩, ⟨"acc_y", (signed8 y : ℚ) / 63⟩,
          ⟨"acc_z", (signed8 z : ℚ) / 63⟩] none ∧
    decodeRaw (0x03 :: x :: y :: z :: c)
      = .ret (⟨"acc_x", (signed8 x : ℚ) / 63⟩ :: ⟨"acc_y", (signed8 y : ℚ) / 63⟩ ::
          ⟨"acc_z", (signed8 z : ℚ) / 63⟩ :: ms) none := by
  have hs : ∀ b : Byte, twosComplement 8 (bigEndian [b]) = signed8 b := twosComplement_8
  have h1 : decodeRaw [0x03, x, y, z]
      = .ret [⟨"acc_x", (signed8 x : ℚ) / 63⟩, ⟨"acc_y", (signed8 y : ℚ) / 63⟩,
          ⟨"acc_z", (signed8 z : ℚ) / 63⟩] none := by
    rw [decodeRaw_single 0x03 _ [x, y, z] rfl rfl]
    simp only [List.zipWith, hs]
  refine ⟨⟨by rw [int8_eq, hs], by rw [int8_eq, hs], by rw [int8_eq, hs]⟩, h1, ?_⟩
  exact decodeRaw_concat [0x03, x, y, z] c _ ms h1 hc

theorem acceleration_three_axes_witness :
    decodeRaw [0x03, 0x3F, 0xC1, 0xBF]
      = .ret [⟨"acc_x", 1⟩, ⟨"acc_y", -1⟩, ⟨"acc_z", -65 / 63⟩] none ∧
    decodeRaw [0x03, 0x3F, 0xC1, 0xBF, 0x02, 0x32]
      = .ret [⟨"acc_x", 1⟩, ⟨"acc_y", -1⟩, ⟨"acc_z", -65 / 63⟩, ⟨"humidity", 50⟩] none := by
  have hb : decodeRaw [0x02, 0x32] = .ret [⟨"humidity", 50⟩] none := by
    simp [decodeRaw, decodeLoop, switchBody, have_, TYPE_TEMP, TYPE_RH, Fin.coe_ofNat_eq_mod]
  have ex : signed8 0x3F = 63 := by decide
  have ey : signed8 0xC1 = -63 := by decide
  have ez : signed8 0xBF = -65 := by decide
  have w := acceleration_three_axes 0x3F 0xC1 0xBF [0x02, 0x32] _ hb
  rw [ex, ey, ez] at w
  refine ⟨?_, ?_⟩
  · rw [w.2.1]; norm_num
  · rw [w.2.2]; norm_num

/-! ## Chunks -/

theorem Chunk.complete_iff (c : Chunk) :
    c.complete = true ↔ ∃ d, fieldTable c.tag = some d ∧ c.payload.length = d.width := by
  unfold Chunk.complete
  cases hd : fieldTable c.tag with
  | none => simp
  | some d => simp

theorem switchBody_append_inv {raw : List Byte} {i : Nat} {ms : List Measurement} {adv : Nat}
    (h : switchBody raw i = .append ms adv) :
    ∃ t d, raw[i]? = some t ∧ fieldTable t = some d ∧ adv = d.width ∧
      i + d.width < raw.length ∧ ms = d.measure ((raw.drop (i + 1)).take d.width) := by
  rw [switchBody_eq] at h
  cases hti : raw[i]? with
  | none => simp [hti] at h
  | some t =>
    cases hd : fieldTable t with
    | none => simp [hti, hd] at h
    | some d =>
      by_cases hl : i + d.width < raw.length
      · simp only [hti, hd, hl, if_true, Step.append.injEq] at h
        exact ⟨t, d, rfl, hd, h.2.symm, hl, h.1.symm⟩
      · simp [hti, hd, hl] at h

/-- A successful walk from cursor `i` cuts the rest of the buffer into
complete chunks and appends their measurements in wire order. -/
theorem run_chunks (raw : List Byte) : ∀ (n i : Nat) (m ms : List Measurement),
    raw.length - i ≤ n → i ≤ raw.length → run raw i m = .ret ms none →
      ∃ cs : List Chunk, (∀ c ∈ cs, c.complete = true) ∧
        raw.drop i = cs.flatMap Chunk.bytes ∧ ms = m ++ cs.flatMap Chunk.measurements := by
  intro n
  induction n with
  | zero =>
    intro i m ms hn hle h
    have hi : ¬ i < raw.length := by omega
    rw [run_eq, if_neg hi] at h
    simp only [Outcome.ret.injEq, and_true] at h
    refine ⟨[], by simp, ?_, by simp [h]⟩
    simp [List.drop_eq_nil_of_le (by omega : raw.length ≤ i)]
  | succ n ih =>
    intro i m ms hn hle h
    by_cases hi : i < raw.length
    · rw [run_eq, if_pos hi] at h
      cases hs : switchBody raw i with
      | append xs adv =>
        rw [hs] at h
        simp only [] at h
        obtain ⟨t, d, hti, hd, hadv, hl, hxs⟩ := switchBody_append_inv hs
        subst hadv
        obtain ⟨cs, hc, hb, hm⟩ := ih _ _ _ (by omega) (by omega) h
        have ht : raw[i] = t := by
          rw [List.getElem?_eq_getElem hi] at hti
          exact Option.some.inj hti
        refine ⟨⟨t, (raw.drop (i + 1)).take d.width⟩ :: cs, ?_, ?_, ?_⟩
        · intro c hcm
          rcases List.mem_cons.1 hcm with rfl | hcm
          · rw [Chunk.complete_iff]
            exact ⟨d, hd, by rw [List.length_take, List.length_drop]; omega⟩
          · exact hc c hcm
        · have key := List.take_append_drop d.width (raw.drop (i + 1))
          rw [List.drop_drop] at key
          have e : i + d.width + 1 = i + 1 + d.width := by omega
          rw [List.flatMap_cons, ← hb, Chunk.bytes, e, List.cons_append, key,
            List.drop_eq_getElem_cons hi, ht]
        · rw [hm, List.flatMap_cons, Chunk.measurements]
          simp only [hd, hxs, List.append_assoc]
      | fail e => rw [hs] at h; simp at h
      | panic => rw [hs] at h; simp at h
    · rw [run_eq, if_neg hi] at h
      simp only [Outcome.ret.injEq, and_true] at h
      refine ⟨[], by simp, ?_, by simp [h]⟩
      simp [List.drop_eq_nil_of_le (by omega : raw.length ≤ i)]

/-- A non-empty sequence of complete chunks decodes to the measurements of its
chunks. -/
theorem decodeRaw_chunks (cs : List Chunk) (hne : cs ≠ [])
    (hc : ∀ c ∈ cs, c.complete = true) :
    decodeRaw (cs.flatMap Chunk.bytes) = .ret (cs.flatMap Chunk.measurements) none := by
  induction cs with
  | nil => exact absurd rfl hne
  | cons c rest ih =>
    obtain ⟨d, hd, hw⟩ := (Chunk.complete_iff c).1 (hc c (List.mem_cons_self _ _))
    have h1 : decodeRaw c.bytes = .ret c.measurements none := by
      rw [Chunk.bytes, Chunk.measurements, hd]
      exact decodeRaw_single c.tag d c.payload hd hw
    by_cases hr : rest = []
    · subst hr
      simpa using h1
    · have h2 := ih hr (fun x hx => hc x (List.mem_cons_of_mem _ hx))
      rw [List.flatMap_cons, List.flatMap_cons]
      exact decodeRaw_concat _ _ _ _ h1 h2

theorem decodeRaw_ne_nil {raw : List Byte} {ms : List Measurement}
    (h : decodeRaw raw = .ret ms none) : raw ≠ [] := by
  intro hn; subst hn; simp [decodeRaw] at h

/-- Decode succeeds exactly on the non-empty concatenations of complete
chunks, and then returns the chunks' measurements in wire order. -/
theorem decodeRaw_iff_chunks (raw : List Byte) (ms : List Measurement) :
    decodeRaw raw = .ret ms none ↔
      ∃ cs : List Chunk, cs ≠ [] ∧ (∀ c ∈ cs, c.complete = true) ∧
        raw = cs.flatMap Chunk.bytes ∧ ms = cs.flatMap Chunk.measurements := by
  constructor
  · intro h
    have hne := decodeRaw_ne_nil h
    rw [decodeRaw_eq_run raw hne] at h
    obtain ⟨cs, hc, hb, hm⟩ := run_chunks raw _ 0 [] ms (le_refl _) (Nat.zero_le _) h
    refine ⟨cs, ?_, hc, by simpa using hb, by simpa using hm⟩
    intro hcs
    subst hcs
    simp at hb
    exact hne hb
  · rintro ⟨cs, hne, hc, rfl, rfl⟩
    exact decodeRaw_chunks cs hne hc

theorem finalCursor_of_ret : ∀ (f : Nat) (raw : List Byte) (i : Nat) (m ms : List Measurement),
    i ≤ raw.length → decodeLoop f raw i m = .ret ms none →
      finalCursor f raw i = some raw.length := by
  intro f
  induction f with
  | zero =>
    intro raw i m ms hle h
    by_cases hi : i < raw.length
    · simp [decodeLoop, hi] at h
    · have : i = raw.length := by omega
      simp [finalCursor, this]
  | succ f ih =>
    intro raw i m ms hle h
    by_cases hi : i < raw.length
    · simp only [decodeLoop, hi, if_true] at h
      simp only [finalCursor, hi, if_true]
      cases hs : switchBody raw i with
      | append xs adv =>
        rw [hs] at h
        have := switchBody_append_lt hs
        exact ih raw _ _ _ (by omega) h
      | fail e => rw [hs] at h; simp at h
      | panic => rw [hs] at h; simp at h
    · have : i = raw.length := by omega
      simp [finalCursor, this]

/-- Case analysis on a complete chunk: it is one of the ten rows of the field
table with a payload of that row's width. -/
theorem Chunk.complete_cases (P : Chunk → Prop) (c : Chunk) (h : c.complete = true)
    (h01 : ∀ a b, P ⟨0x01, [a, b]⟩) (h02 : ∀ a, P ⟨0x02, [a]⟩)
    (h03 : ∀ x y z, P ⟨0x03, [x, y, z]⟩) (h04 : ∀ a b, P ⟨0x04, [a, b]⟩)
    (h05 : ∀ a, P ⟨0x05, [a]⟩) (h06 : ∀ a b, P ⟨0x06, [a, b]⟩)
    (h07 : ∀ a b, P ⟨0x07, [a, b]⟩) (h1B : ∀ a b c d, P ⟨0x1B, [a, b, c, d]⟩)
    (h1C : ∀ a b, P ⟨0x1C, [a, b]⟩) (h14 : ∀ a b c d, P ⟨0x14, [a, b, c, d]⟩) : P c := by
  obtain ⟨t, p⟩ := c
  obtain ⟨d, hd, hw⟩ := (Chunk.complete_iff _).1 h
  simp only at hd hw
  have one : p.length = 1 → ∃ a, p = [a] := List.length_eq_one.1
  have two : p.length = 2 → ∃ a b, p = [a, b] := List.length_eq_two.1
  have three : p.length = 3 → ∃ a b c, p = [a, b, c] := List.length_eq_three.1
  have four : p.length = 4 → ∃ a b c d, p = [a, b, c, d] := by
    intro h4
    match p, h4 with
    | [a, b, c, d], _ => exact ⟨a, b, c, d, rfl⟩
  unfold fieldTable at hd
  by_cases t1 : t = 1
  · subst t1; simp at hd; subst hd
    obtain ⟨a, b, rfl⟩ := two hw; exact h01 a b
  by_cases t2 : t = 2
  · subst t2; simp at hd; subst hd
    obtain ⟨a, rfl⟩ := one hw; exact h02 a
  by_cases t3 : t = 3
  · subst t3; simp at hd; subst hd
    obtain ⟨a, b, c, rfl⟩ := three hw; exact h03 a b c
  by_cases t4 : t = 4
  · subst t4; simp at hd; subst hd
    obtain ⟨a, b, rfl⟩ := two hw; exact h04 a b
  by_cases t5 : t = 5
  · subst t5; simp at hd; subst hd
    obtain ⟨a, rfl⟩ := one hw; exact h05 a
  by_cases t6 : t = 6
  · subst t6; simp at hd; subst hd
    obtain ⟨a, b, rfl⟩ := two hw; exact h06 a b
  by_cases t7 : t = 7
  · subst t7; simp at hd; subst hd
    obtain ⟨a, b, rfl⟩ := two hw; exact h07 a b
  by_cases t27 : t = 27
  · subst t27; simp at hd; subst hd
    obtain ⟨a, b, c, d, rfl⟩ := four hw; exact h1B a b c d
  by_cases t28 : t = 28
  · subst t28; simp at hd; subst hd
    obtain ⟨a, b, rfl⟩ := two hw; exact h1C a b
  by_cases t20 : t = 20
  · subst t20; simp at hd; subst hd
    obtain ⟨a, b, c, d, rfl⟩ := four hw; exact h14 a b c d
  simp [t1, t2, t3, t4, t5, t6, t7, t27, t28, t20] at hd

theorem Chunk.names_eq (c : Chunk) (h : c.complete = true) :
    c.tag ∈ recognisedTags ∧ c.measurements.map Measurement.Name = tagNames c.tag := by
  refine Chunk.complete_cases
    (fun c => c.tag ∈ recognisedTags ∧ c.measurements.map Measurement.Name = tagNames c.tag)
    c h ?_ ?_ ?_ ?_ ?_ ?_ ?_ ?_ ?_ ?_ <;> intros <;>
    exact ⟨by simp [recognisedTags, TYPE_TEMP, TYPE_RH, TYPE_ACC, TYPE_LIGHT, TYPE_MOTION,
      TYPE_CO2, TYPE_VDD, TYPE_EXT_ANALOG_UV, TYPE_TVOC, TYPE_PRESSURE], rfl⟩

theorem Chunk.count_le (c : Chunk) (h : c.complete = true) :
    1 ≤ c.measurements.length ∧ 4 * c.measurements.length ≤ 3 * c.bytes.length := by
  refine Chunk.complete_cases
    (fun c => 1 ≤ c.measurements.length ∧ 4 * c.measurements.length ≤ 3 * c.bytes.length)
    c h ?_ ?_ ?_ ?_ ?_ ?_ ?_ ?_ ?_ ?_ <;> intros <;>
    simp [Chunk.measurements, Chunk.bytes, fieldTable]

theorem chunks_names (cs : List Chunk) (hc : ∀ c ∈ cs, c.complete = true) :
    (∀ t ∈ cs.map Chunk.tag, t ∈ recognisedTags) ∧
    (cs.flatMap Chunk.measurements).map Measurement.Name
      = (cs.map Chunk.tag).flatMap tagNames := by
  induction cs with
  | nil => simp
  | cons c rest ih =>
    obtain ⟨h1, h2⟩ := Chunk.names_eq c (hc c (List.mem_cons_self _ _))
    obtain ⟨i1, i2⟩ := ih (fun x hx => hc x (List.mem_cons_of_mem _ hx))
    constructor
    · intro t ht
      rw [List.map_cons] at ht
      rcases List.mem_cons.1 ht with rfl | ht
      · exact h1
      · exact i1 t ht
    · rw [List.flatMap_cons, List.map_append, h2, i2, List.map_cons, List.flatMap_cons]

theorem chunks_count (cs : List Chunk) (hc : ∀ c ∈ cs, c.complete = true) :
    cs.length ≤ (cs.flatMap Chunk.measurements).length ∧
    4 * (cs.flatMap Chunk.measurements).length ≤ 3 * (cs.flatMap Chunk.bytes).length := by
  induction cs with
  | nil => simp
  | cons c rest ih =>
    obtain ⟨h1, h2⟩ := Chunk.count_le c (hc c (List.mem_cons_self _ _))
    obtain ⟨i1, i2⟩ := ih (fun x hx => hc x (List.mem_cons_of_mem _ hx))
    rw [List.flatMap_cons, List.flatMap_cons, List.length_append, List.length_append,
      List.length_cons]
    constructor <;> omega

theorem vocabulary_eq : recognisedTags.flatMap tagNames = vocabulary := by decide

theorem tagNames_length (t : Byte) (ht : t ∈ recognisedTags) (hne : t ≠ TYPE_ACC) :
    (tagNames t).length = 1 := by
  simp only [recognisedTags, List.mem_cons, List.mem_singleton, List.not_mem_nil,
    or_false] at ht
  rcases ht with rfl | rfl | rfl | rfl | rfl | rfl | rfl | rfl | rfl | rfl
  all_goals first | exact absurd rfl hne | rfl

theorem vocabulary_nodup : (recognisedTags.flatMap tagNames).Nodup := by decide

/-! ## Sample buffers -/

theorem sample_temp_hum :
    decodeRaw [0x01, 0x00, 0xD7, 0x02, 0x32]
      = .ret [⟨"temperature", 43 / 2⟩, ⟨"humidity", 50⟩] none := by
  simp [decodeRaw, decodeLoop, switchBody, have_, TYPE_TEMP, TYPE_RH, int16Word, toSigned,
    Fin.coe_ofNat_eq_mod]
  norm_num

theorem sample_acc_hum :
    decodeRaw [0x03, 0x3F, 0xC1, 0xBF, 0x02, 0x32]
      = .ret [⟨"acc_x", 1⟩, ⟨"acc_y", -1⟩, ⟨"acc_z", -65 / 63⟩, ⟨"humidity", 50⟩] none := by
  simp [decodeRaw, decodeLoop, switchBody, have_, TYPE_TEMP, TYPE_RH, TYPE_ACC, int8, toSigned,
    Fin.coe_ofNat_eq_mod]

theorem sample_acc :
    decodeRaw [0x03, 0x3F, 0xC1, 0xBF]
      = .ret [⟨"acc_x", 1⟩, ⟨"acc_y", -1⟩, ⟨"acc_z", -65 / 63⟩] none := by
  simp [decodeRaw, decodeLoop, switchBody, have_, TYPE_TEMP, TYPE_RH, TYPE_ACC, int8, toSigned,
    Fin.coe_ofNat_eq_mod]

/-! ## Names and counts -/

/-- Claim C11: in every successful decode result every measurement name
belongs to the fixed vocabulary, and the sequence of names is the
concatenation, over a sequence of recognised tags, of each tag's name block:
the accelerometer tag gives the block acc_x, acc_y, acc_z, every other tag a
block of one name, and no name belongs to the blocks of two tags. -/
theorem names_in_vocabulary (raw : List Byte) (ms : List Measurement)
    (h : decodeRaw raw = .ret ms none) :
    (∀ m ∈ ms, m.Name ∈ vocabulary) ∧
    (∃ tags : List Byte, (∀ t ∈ tags, t ∈ recognisedTags) ∧
      ms.map Measurement.Name = tags.flatMap tagNames) ∧
    tagNames TYPE_ACC = ["acc_x", "acc_y", "acc_z"] ∧
    (∀ t ∈ recognisedTags, t ≠ TYPE_ACC → (tagNames t).length = 1) ∧
    (recognisedTags.flatMap tagNames).Nodup := by
  obtain ⟨cs, _, hc, _, rfl⟩ := (decodeRaw_iff_chunks raw ms).1 h
  obtain ⟨ht, hn⟩ := chunks_names cs hc
  refine ⟨?_, ⟨cs.map Chunk.tag, ht, hn⟩, rfl, tagNames_length, vocabulary_nodup⟩
  intro m hm
  have hmem : m.Name ∈ (cs.flatMap Chunk.measurements).map Measurement.Name :=
    List.mem_map_of_mem _ hm
  rw [hn] at hmem
  obtain ⟨t, htm, hnt⟩ := List.mem_flatMap.1 hmem
  rw [← vocabulary_eq]
  exact List.mem_flatMap.2 ⟨t, ht t htm, hnt⟩

theorem names_in_vocabulary_witness :
    (∀ m ∈ [(⟨"acc_x", 1⟩ : Measurement), ⟨"acc_y", -1⟩, ⟨"acc_z", -65 / 63⟩, ⟨"humidity", 50⟩],
      m.Name ∈ vocabulary) ∧
    (∃ tags : List Byte, (∀ t ∈ tags, t ∈ recognisedTags) ∧
      [(⟨"acc_x", 1⟩ : Measurement), ⟨"acc_y", -1⟩, ⟨"acc_z", -65 / 63⟩,
        ⟨"humidity", 50⟩].map Measurement.Name = tags.flatMap tagNames) ∧
    tagNames TYPE_ACC = ["acc_x", "acc_y", "acc_z"] ∧
    (∀ t ∈ recognisedTags, t ≠ TYPE_ACC → (tagNames t).length = 1) ∧
    (recognisedTags.flatMap tagNames).Nodup :=
  names_in_vocabulary [0x03, 0x3F, 0xC1, 0xBF, 0x02, 0x32] _ sample_acc_hum

/-- Claim C19: a successful decode never returns an empty sequence, and the
number of measurements is bounded by the input size:
`1 <= len(result)` and `4 * len(result) <= 3 * len(bytes)`. -/
theorem measurement_count_bounds (raw : List Byte) (ms : List Measurement)
    (h : decodeRaw raw = .ret ms none) :
    1 ≤ ms.length ∧ 4 * ms.length ≤ 3 * raw.length := by
  obtain ⟨cs, hne, hc, rfl, rfl⟩ := (decodeRaw_iff_chunks raw ms).1 h
  obtain ⟨h1, h2⟩ := chunks_count cs hc
  have : 1 ≤ cs.length := by
    cases cs with
    | nil => exact absurd rfl hne
    | cons c rest => simp
  exact ⟨by omega, h2⟩

theorem measurement_count_bounds_witness :
    1 ≤ [(⟨"acc_x", 1⟩ : Measurement), ⟨"acc_y", -1⟩, ⟨"acc_z", -65 / 63⟩].length ∧
    4 * [(⟨"acc_x", 1⟩ : Measurement), ⟨"acc_y", -1⟩, ⟨"acc_z", -65 / 63⟩].length
      ≤ 3 * [(0x03 : Byte), 0x3F, 0xC1, 0xBF].length :=
  measurement_count_bounds [0x03, 0x3F, 0xC1, 0xBF] _ sample_acc

/-! ## Cursor, bounds and termination -/

theorem length_flatMap_bytes (cs : List Chunk) :
    (cs.flatMap Chunk.bytes).length = (cs.map (fun c => 1 + c.payload.length)).sum := by
  induction cs with
  | nil => rfl
  | cons c rest ih =>
    rw [List.flatMap_cons, List.length_append, ih, List.map_cons, List.sum_cons, Chunk.bytes,
      List.length_cons]
    omega

/-- Claim C13: decode succeeds on a buffer exactly when the buffer is a
non-empty concatenation of complete chunks (a recognised tag followed by
exactly `width(tag)` payload bytes); the chunk lengths then sum to
`len(bytes)`, the result is the concatenation in wire order of the chunks'
measurements, and the loop is left with the cursor equal to `len(bytes)`. -/
theorem success_iff_complete_chunks (raw : List Byte) (ms : List Measurement) :
    (decodeRaw raw = .ret ms none ↔
      ∃ cs : List Chunk, cs ≠ [] ∧ (∀ c ∈ cs, c.complete = true) ∧
        raw = cs.flatMap Chunk.bytes ∧
        (cs.map (fun c => 1 + c.payload.length)).sum = raw.length ∧
        ms = cs.flatMap Chunk.measurements) ∧
    (decodeRaw raw = .ret ms none → finalCursor raw.length raw 0 = some raw.length) := by
  constructor
  · rw [decodeRaw_iff_chunks]
    constructor
    · rintro ⟨cs, hne, hc, hb, hm⟩
      exact ⟨cs, hne, hc, hb, by rw [hb, length_flatMap_bytes], hm⟩
    · rintro ⟨cs, hne, hc, hb, _, hm⟩
      exact ⟨cs, hne, hc, hb, hm⟩
  · intro h
    have hne := decodeRaw_ne_nil h
    have hl : raw.length ≠ 0 := by simpa using hne
    simp only [decodeRaw, hl, if_false] at h
    exact finalCursor_of_ret _ raw 0 [] ms (Nat.zero_le _) h

theorem success_iff_complete_chunks_witness :
    decodeRaw [0x01, 0x00, 0xD7, 0x02, 0x32]
      = .ret [⟨"temperature", 43 / 2⟩, ⟨"humidity", 50⟩] none ∧
    finalCursor 5 [0x01, 0x00, 0xD7, 0x02, 0x32] 0 = some 5 := by
  have h := success_iff_complete_chunks [0x01, 0x00, 0xD7, 0x02, 0x32]
    [⟨"temperature", 43 / 2⟩, ⟨"humidity", 50⟩]
  have hd := h.1.2 ⟨[⟨0x01, [0x00, 0xD7]⟩, ⟨0x02, [0x32]⟩], by simp, by decide, rfl, rfl, by
    simp [Chunk.measurements, fieldTable, bigEndian, twosComplement, Fin.coe_ofNat_eq_mod]
    norm_num⟩
  exact ⟨hd, h.2 hd⟩

theorem have_iff (buf : List Byte) (idx needed : Nat) (hn : 1 ≤ needed) :
    have_ idx needed buf = true ↔ ∀ k, 1 ≤ k → k ≤ needed → idx + k < buf.length := by
  simp only [have_, decide_eq_true_eq]
  constructor
  · intro h k _ hk
    omega
  · intro h
    exact h needed hn (le_refl _)

theorem wrapInt64_eq (z : Int) (h0 : 0 ≤ z) (h1 : z ≤ maxInt64) : wrapInt64 z = z := by
  unfold wrapInt64
  unfold maxInt64 at h1
  omega

theorem haveInt_eq_have_ (idx needed : Nat) (buf : List Byte)
    (hs : (idx : Int) + needed ≤ maxInt64) :
    haveInt idx needed buf = have_ idx needed buf := by
  unfold haveInt have_
  rw [wrapInt64_eq _ (by omega) hs]
  congr 1
  apply propext
  constructor <;> intro h <;> omega

/-- Claim C14, refuted as stated: with `idx` the largest `int` and
`needed = 1` the sum `idx + needed` wraps to the smallest `int`, so `have` is
true on a three-byte buffer although `idx + 1` is no valid index of it. -/
theorem have_wraps_past_max_int :
    haveInt 9223372036854775807 1 [0x01, 0x00, 0xD7] = true ∧
    ¬ ((9223372036854775807 : Int) + 1 < (([0x01, 0x00, 0xD7] : List Byte).length : Int)) ∧
    ¬ (haveInt 9223372036854775807 1 [0x01, 0x00, 0xD7] = true ↔
        ∀ k : Int, 1 ≤ k → k ≤ 1 →
          9223372036854775807 + k < (([0x01, 0x00, 0xD7] : List Byte).length : Int)) := by
  refine ⟨by decide, by decide, ?_⟩
  intro h
  have h1 := h.1 (by decide) 1 (le_refl _) (le_refl _)
  revert h1
  decide

/-- Claim C14, amended: for every buffer, index `idx >= 0` and `needed >= 1`
whose sum does not exceed the largest `int`, `have(idx, needed, buf)` is true
exactly when all the payload indices `idx+1 .. idx+needed` are valid indices
of `buf`, and a read at any of them then finds a byte.  The calls of `Decode`,
with a cursor inside the buffer and a width of at most 4, are in that range
for every buffer with `len(raw) + 4` at most the largest `int`, where `have`
is the natural-number check of the walk; no pass through the switch at a
cursor inside the buffer panics, and neither the decoder on a byte buffer nor
`Decode` panics. -/
theorem have_guards_reads (buf : List Byte) (idx needed : Nat) (hn : 1 ≤ needed)
    (hs : (idx : Int) + needed ≤ maxInt64) :
    (haveInt idx needed buf = true ↔ ∀ k, 1 ≤ k → k ≤ needed → idx + k < buf.length) ∧
    (haveInt idx needed buf = true → ∀ k, k ≤ needed → ∃ b, buf[idx + k]? = some b) ∧
    (∀ i w : Nat, i < buf.length → w ≤ 4 → (buf.length : Int) + 4 ≤ maxInt64 →
      haveInt i w buf = have_ i w buf) ∧
    (∀ i, i < buf.length → switchBody buf i ≠ .panic) ∧
    decodeRaw buf ≠ .panic ∧
    (∀ (decodeString : String → Except String (List Byte)) (b64 : String),
      Decode decodeString b64 ≠ .panic) := by
  have hb := haveInt_eq_have_ idx needed buf hs
  refine ⟨by rw [hb]; exact have_iff buf idx needed hn, ?_, ?_,
    fun i hi => switchBody_no_panic hi, ?_, ?_⟩
  · intro h k hk
    rw [hb] at h
    simp only [have_, decide_eq_true_eq] at h
    have hlt : idx + k < buf.length := Nat.lt_of_le_of_lt (Nat.add_le_add_left hk idx) h
    exact ⟨buf[idx + k], List.getElem?_eq_getElem hlt⟩
  · intro i w hi hw hl
    exact haveInt_eq_have_ i w buf (by omega)
  · rcases decodeRaw_total buf with ⟨ms, h⟩ | ⟨e, h⟩ <;> rw [h] <;> simp
  · intro decodeString b64
    unfold Decode
    cases decodeString b64 with
    | error err => simp
    | ok raw =>
      show decodeRaw raw ≠ .panic
      rcases decodeRaw_total raw with ⟨ms, h⟩ | ⟨e, h⟩ <;> rw [h] <;> simp

theorem have_guards_reads_witness :
    (haveInt (0 : Nat) (2 : Nat) [0x01, 0x00, 0xD7] = true ↔
      ∀ k, 1 ≤ k → k ≤ 2 → 0 + k < [(0x01 : Byte), 0x00, 0xD7].length) ∧
    (haveInt (0 : Nat) (2 : Nat) [0x01, 0x00, 0xD7] = true →
      ∀ k, k ≤ 2 → ∃ b, [(0x01 : Byte), 0x00, 0xD7][0 + k]? = some b) ∧
    (∀ i w : Nat, i < [(0x01 : Byte), 0x00, 0xD7].length → w ≤ 4 →
      (([0x01, 0x00, 0xD7] : List Byte).length : Int) + 4 ≤ maxInt64 →
      haveInt i w [0x01, 0x00, 0xD7] = have_ i w [0x01, 0x00, 0xD7]) ∧
    (∀ i, i < [(0x01 : Byte), 0x00, 0xD7].length →
      switchBody [0x01, 0x00, 0xD7] i ≠ .panic) ∧
    decodeRaw [0x01, 0x00, 0xD7] ≠ .panic ∧
    (∀ (decodeString : String → Except String (List Byte)) (b64 : String),
      Decode decodeString b64 ≠ .panic) :=
  have_guards_reads [0x01, 0x00, 0xD7] 0 2 (by decide) (by norm_num [maxInt64])

theorem i32_cases (b3 b2 b1 b0 : Byte) :
    i32 b3 b2 b1 b0 = if b3.val < 0x80 then (u32 b3 b2 b1 b0 : Int)
      else (u32 b3 b2 b1 b0 : Int) - 2 ^ 32 := by
  have h3 := b3.isLt
  have h2 := b2.isLt
  have h1 := b1.isLt
  have h0 := b0.isLt
  have hu := u32_eq b3 b2 b1 b0
  rw [i32, toSigned_eq _ _ (by rw [hu]; omega), twosComplement]
  by_cases hh : b3.val < 0x80
  · have : u32 b3 b2 b1 b0 < 2 ^ (32 - 1) := by rw [hu]; norm_num; omega
    rw [if_pos hh, if_pos this]
  · have : ¬ u32 b3 b2 b1 b0 < 2 ^ (32 - 1) := by rw [hu]; norm_num; omega
    rw [if_neg hh, if_neg this]

/-- Claim C15: for all bytes, `u16(b1, b0) = 256*b1 + b0`,
`u32(b3, b2, b1, b0) = b3*2^24 + b2*2^16 + b1*2^8 + b0`, and `i32` is the
two's-complement reading of that word; the analog field decodes to `i32` of
its payload with no scaling and the pressure field to `u32/1000`, so
`1B FF FF FF FF` gives analog_uv = -1 and `14 00 0F 42 40` gives
pressure = 1000. -/
theorem byte_assembly_big_endian (b3 b2 b1 b0 : Byte) :
    u16 b1 b0 = 256 * b1.val + b0.val ∧
    u32 b3 b2 b1 b0 = b3.val * 2 ^ 24 + b2.val * 2 ^ 16 + b1.val * 2 ^ 8 + b0.val ∧
    i32 b3 b2 b1 b0 = (if b3.val < 0x80 then (u32 b3 b2 b1 b0 : Int)
      else (u32 b3 b2 b1 b0 : Int) - 2 ^ 32) ∧
    decodeRaw [0x1B, b3, b2, b1, b0]
      = .ret [⟨"analog_uv", (i32 b3 b2 b1 b0 : ℚ)⟩] none ∧
    decodeRaw [0x14, b3, b2, b1, b0]
      = .ret [⟨"pressure", (u32 b3 b2 b1 b0 : ℚ) / 1000⟩] none ∧
    decodeRaw [0x1B, 0xFF, 0xFF, 0xFF, 0xFF] = .ret [⟨"analog_uv", -1⟩] none ∧
    decodeRaw [0x14, 0x00, 0x0F, 0x42, 0x40] = .ret [⟨"pressure", 1000⟩] none := by
  have ha : ∀ a b c d : Byte, decodeRaw [0x1B, a, b, c, d]
      = .ret [⟨"analog_uv", (i32 a b c d : ℚ)⟩] none := by
    intro a b c d
    rw [decodeRaw_single 0x1B _ [a, b, c, d] rfl rfl, i32_eq]
  have hp : ∀ a b c d : Byte, decodeRaw [0x14, a, b, c, d]
      = .ret [⟨"pressure", (u32 a b c d : ℚ) / 1000⟩] none := by
    intro a b c d
    rw [decodeRaw_single 0x14 _ [a, b, c, d] rfl rfl, u32_eq]
    simp only [bigEndian_four]
  refine ⟨u16_eq b1 b0, u32_eq b3 b2 b1 b0, i32_cases b3 b2 b1 b0, ha _ _ _ _, hp _ _ _ _, ?_, ?_⟩
  · rw [ha, i32_cases, u32_eq]
    simp [Fin.coe_ofNat_eq_mod]
  · rw [hp, u32_eq]
    simp [Fin.coe_ofNat_eq_mod]
    norm_num

theorem iterations_le (raw : List Byte) : ∀ (f i : Nat),
    iterations f raw i ≤ raw.length - i := by
  intro f
  induction f with
  | zero => intro i; simp [iterations]
  | succ f ih =>
    intro i
    by_cases hi : i < raw.length
    · simp only [iterations, hi, if_true]
      cases hs : switchBody raw i with
      | append ms adv =>
        have h1 := switchBody_append_lt hs
        have h2 := ih (i + adv + 1)
        simp only []
        omega
      | fail e => simp only []; omega
      | panic => simp only []; omega
    · simp [iterations, hi]

theorem decodeLoop_returns (raw : List Byte) (f i : Nat) (m : List Measurement)
    (hf : raw.length - i ≤ f) : ∃ ms err, decodeLoop f raw i m = .ret ms err := by
  have e : decodeLoop f raw i m = run raw i m :=
    decodeLoop_fuel f _ raw i m hf (le_refl _)
  rw [e]
  rcases run_total raw _ i m (le_refl _) with ⟨ms, h⟩ | ⟨err, h⟩
  · exact ⟨ms, none, h⟩
  · exact ⟨[], some err, h⟩

theorem switchBody_progress (raw : List Byte) (i : Nat) (hi : i < raw.length) :
    (∃ ms adv, switchBody raw i = .append ms adv ∧ 1 ≤ adv ∧ i + adv + 1 ≤ raw.length) ∨
    (∃ e, switchBody raw i = .fail e) := by
  cases hs : switchBody raw i with
  | append ms adv =>
    left
    obtain ⟨t, d, _, hd, hadv, hl, _⟩ := switchBody_append_inv hs
    have hc : (⟨t, List.replicate d.width 0⟩ : Chunk).complete = true := by
      rw [Chunk.complete_iff]; exact ⟨d, hd, by simp⟩
    have hw : 1 ≤ d.width := by
      have := (Chunk.count_le _ hc).2
      have h4 := (Chunk.count_le _ hc).1
      simp only [Chunk.bytes, List.length_cons, List.length_replicate] at this
      omega
    exact ⟨ms, adv, rfl, by omega, by omega⟩
  | fail e => exact Or.inr ⟨e, rfl⟩
  | panic => exact absurd hs (switchBody_no_panic hi)

/-- Claim C16: the walk terminates on every input buffer.  With one unit of
fuel per byte the loop returns; the loop body is entered at most `len(bytes)`
times whatever the fuel; and every pass through the switch at a cursor inside
the buffer either appends a field and moves the cursor by `1 + width >= 2`
without passing `len(bytes)`, or ends the call with an error. -/
theorem walk_terminates (raw : List Byte) :
    (∃ ms err, decodeLoop raw.length raw 0 [] = .ret ms err) ∧
    (∀ fuel, iterations fuel raw 0 ≤ raw.length) ∧
    (∀ i, i < raw.length →
      (∃ ms adv, switchBody raw i = .append ms adv ∧ 1 ≤ adv ∧ i + adv + 1 ≤ raw.length) ∨
      (∃ e, switchBody raw i = .fail e)) :=
  ⟨decodeLoop_returns raw _ 0 [] (by omega), fun fuel => iterations_le raw fuel 0,
    switchBody_progress raw⟩

/-! ## Errors behind a decoded buffer -/

theorem switchBody_fail_kind {raw : List Byte} {i : Nat} {e : DecodeError}
    (h : switchBody raw i = .fail e) :
    e = .errShort ∨ ∃ t, e = .errUnknown t i := by
  rw [switchBody_eq] at h
  cases hti : raw[i]? with
  | none => simp [hti] at h
  | some t =>
    cases hd : fieldTable t with
    | none =>
      simp only [hti, hd, Step.fail.injEq] at h
      exact Or.inr ⟨t, h.symm⟩
    | some d =>
      by_cases hl : i + d.width < raw.length
      · simp [hti, hd, hl] at h
      · simp only [hti, hd, hl, if_false, Step.fail.injEq] at h
        exact Or.inl h.symm

theorem run_error_kind (raw : List Byte) : ∀ (n i : Nat) (m xs : List Measurement)
    (e : DecodeError), raw.length - i ≤ n → run raw i m = .ret xs (some e) →
      e = .errShort ∨ ∃ t k, e = .errUnknown t k := by
  intro n
  induction n with
  | zero =>
    intro i m xs e hn h
    have hi : ¬ i < raw.length := by omega
    rw [run_eq, if_neg hi] at h
    simp at h
  | succ n ih =>
    intro i m xs e hn h
    by_cases hi : i < raw.length
    · rw [run_eq, if_pos hi] at h
      cases hs : switchBody raw i with
      | append ms adv =>
        rw [hs] at h
        exact ih _ _ _ _ (by omega) h
      | fail e2 =>
        rw [hs] at h
        simp only [Outcome.ret.injEq, Option.some.injEq] at h
        rcases switchBody_fail_kind hs with h1 | ⟨t, h1⟩
        · exact Or.inl (h.2 ▸ h1)
        · exact Or.inr ⟨t, i, h.2 ▸ h1⟩
      | panic => rw [hs] at h; simp at h
    · rw [run_eq, if_neg hi] at h
      simp at h

/-- Claim C18: for every byte sequence `a` on which decode succeeds and every
non-empty `b`, decode of `a ++ b` succeeds exactly when decode of `b` does;
when decode of `b` fails, its error is `TruncatedPayload` or `UnknownTag`, and
decode of `a ++ b` fails with the same kind: `TruncatedPayload` stays
`TruncatedPayload`, and `UnknownTag(t, k)` becomes `UnknownTag(t, k + len(a))`. -/
theorem error_shifted_behind_decoded (a b : List Byte) (ms : List Measurement)
    (ha : decodeRaw a = .ret ms none) (hb : b ≠ []) :
    ((∃ xs, decodeRaw (a ++ b) = .ret xs none) ↔ ∃ xs, decodeRaw b = .ret xs none) ∧
    (∀ e, decodeRaw b = .ret [] (some e) → e = .errShort ∨ ∃ t k, e = .errUnknown t k) ∧
    (decodeRaw b = .ret [] (some .errShort) →
      decodeRaw (a ++ b) = .ret [] (some .errShort)) ∧
    (∀ t k, decodeRaw b = .ret [] (some (.errUnknown t k)) →
      decodeRaw (a ++ b) = .ret [] (some (.errUnknown t (k + a.length)))) := by
  have hab := decodeRaw_append a b ms ha
  rw [← decodeRaw_eq_run b hb] at hab
  refine ⟨?_, ?_, ?_, ?_⟩
  · constructor
    · rintro ⟨xs, h⟩
      rcases decodeRaw_total b with ⟨ys, hy⟩ | ⟨e, hy⟩
      · exact ⟨ys, hy⟩
      · rw [hab, hy] at h
        simp [Outcome.prepend, Outcome.shift] at h
    · rintro ⟨xs, h⟩
      exact ⟨ms ++ xs, by rw [hab, h]; rfl⟩
  · intro e he
    rw [decodeRaw_eq_run b hb] at he
    exact run_error_kind b _ 0 [] [] e (le_refl _) he
  · intro h
    rw [hab, h]; rfl
  · intro t k h
    rw [hab, h, Nat.add_comm]; rfl

theorem error_shifted_behind_decoded_witness :
    ((∃ xs, decodeRaw ([0x01, 0x00, 0xD7, 0x02, 0x32] ++ [0x04, 0x0A, 0xFF]) = .ret xs none) ↔
      ∃ xs, decodeRaw [0x04, 0x0A, 0xFF] = .ret xs none) ∧
    decodeRaw ([0x01, 0x00, 0xD7, 0x02, 0x32] ++ [0x02, 0x32, 0xFF])
      = .ret [] (some (.errUnknown 0xFF 7)) ∧
    decodeRaw ([0x01, 0x00, 0xD7, 0x02, 0x32] ++ [0x02, 0x32, 0x01, 0x00])
      = .ret [] (some .errShort) :=
  ⟨(error_shifted_behind_decoded _ [0x04, 0x0A, 0xFF] _ sample_temp_hum (by simp)).1,
   (error_shifted_behind_decoded _ [0x02, 0x32, 0xFF] _ sample_temp_hum (by simp)).2.2.2
      0xFF 2 (by
        simp [decodeRaw, decodeLoop, switchBody, have_, TYPE_TEMP, TYPE_RH, TYPE_ACC,
          TYPE_LIGHT, TYPE_MOTION, TYPE_CO2, TYPE_VDD, TYPE_EXT_ANALOG_UV, TYPE_TVOC,
          TYPE_PRESSURE, Fin.coe_ofNat_eq_mod]),
   (error_shifted_behind_decoded _ [0x02, 0x32, 0x01, 0x00] _ sample_temp_hum (by simp)).2.2.1
      (by
        simp [decodeRaw, decodeLoop, switchBody, have_, TYPE_TEMP, TYPE_RH,
          Fin.coe_ofNat_eq_mod])⟩

/-! ## The encoder -/

theorem num_scaled (z : Int) (k : Nat) (hk : k ≠ 0) : ((z : ℚ) / (k : ℚ) * (k : ℚ)).num = z := by
  have hk2 : (k : ℚ) ≠ 0 := by exact_mod_cast hk
  rw [div_mul_cancel₀ _ hk2]
  exact Rat.num_intCast z

theorem patternOf_twos (w n : Nat) (h : n < 2 ^ w) :
    patternOf w (twosComplement w n) = n := by
  unfold patternOf twosComplement
  have h2 : (2 : Int) ^ w = ((2 ^ w : Nat) : Int) := by push_cast; rfl
  have hpos : (0 : Int) < ((2 ^ w : Nat) : Int) := by
    have : 0 < 2 ^ w := by positivity
    exact_mod_cast this
  have hn : ((n : Int)) < ((2 ^ w : Nat) : Int) := by exact_mod_cast h
  rw [h2]
  by_cases hc : n < 2 ^ (w - 1)
  · rw [if_pos hc, Int.emod_eq_of_lt (by omega) hn]
    simp
  · have e : (n : Int) - ((2 ^ w : Nat) : Int) = n + (-1) * ((2 ^ w : Nat) : Int) := by ring
    rw [if_neg hc, e, Int.add_mul_emod_self, Int.emod_eq_of_lt (by omega) hn]
    simp

theorem patternOf_nat (w n : Nat) (h : n < 2 ^ w) : patternOf w (n : Int) = n := by
  unfold patternOf
  have h2 : (2 : Int) ^ w = ((2 ^ w : Nat) : Int) := by push_cast; rfl
  have hn : ((n : Int)) < ((2 ^ w : Nat) : Int) := by exact_mod_cast h
  rw [h2, Int.emod_eq_of_lt (by omega) hn]
  simp

theorem byteAt_two (a b : Byte) :
    byteAt (256 * a.val + b.val) 1 = a ∧ byteAt (256 * a.val + b.val) 0 = b := by
  have ha := a.isLt
  have hb := b.isLt
  constructor <;> apply Fin.ext <;> simp [byteAt, byteOfNat] <;> omega

theorem byteAt_one (a : Byte) : byteAt a.val 0 = a := by
  apply Fin.ext
  simp [byteAt, byteOfNat, Nat.mod_eq_of_lt a.isLt]

theorem byteAt_four (a b c d : Byte) :
    byteAt (a.val * 2 ^ 24 + b.val * 2 ^ 16 + c.val * 2 ^ 8 + d.val) 3 = a ∧
    byteAt (a.val * 2 ^ 24 + b.val * 2 ^ 16 + c.val * 2 ^ 8 + d.val) 2 = b ∧
    byteAt (a.val * 2 ^ 24 + b.val * 2 ^ 16 + c.val * 2 ^ 8 + d.val) 1 = c ∧
    byteAt (a.val * 2 ^ 24 + b.val * 2 ^ 16 + c.val * 2 ^ 8 + d.val) 0 = d := by
  have ha := a.isLt
  have hb := b.isLt
  have hc := c.isLt
  have hd := d.isLt
  refine ⟨?_, ?_, ?_, ?_⟩ <;> apply Fin.ext <;> simp [byteAt, byteOfNat] <;> omega

theorem encode_temp (a b : Byte) :
    encodeOne ⟨"temperature", (twosComplement 16 (bigEndian [a, b]) : ℚ) / 10⟩
      = [0x01, a, b] := by
  have ha := a.isLt
  have hb := b.isLt
  have hn := num_scaled (twosComplement 16 (bigEndian [a, b])) 10 (by decide)
  simp only [Nat.cast_ofNat] at hn
  simp only [encodeOne, if_true, hn]
  rw [bigEndian_two, patternOf_twos 16 _ (by omega), (byteAt_two a b).1, (byteAt_two a b).2]
  rfl

theorem encode_byte (name : String) (t : Byte) (a : Byte)
    (h : encodeOne ⟨name, (bigEndian [a] : ℚ)⟩
      = [t, byteAt (patternOf 8 ((bigEndian [a] : ℚ)).num) 0]) :
    encodeOne ⟨name, (bigEndian [a] : ℚ)⟩ = [t, a] := by
  have ha := a.isLt
  rw [h, Rat.num_natCast, bigEndian_one, patternOf_nat 8 _ (by omega), byteAt_one]

theorem encode_word (name : String) (t : Byte) (a b : Byte)
    (h : encodeOne ⟨name, (bigEndian [a, b] : ℚ)⟩
      = [t, byteAt (patternOf 16 ((bigEndian [a, b] : ℚ)).num) 1,
          byteAt (patternOf 16 ((bigEndian [a, b] : ℚ)).num) 0]) :
    encodeOne ⟨name, (bigEndian [a, b] : ℚ)⟩ = [t, a, b] := by
  have ha := a.isLt
  have hb := b.isLt
  rw [h, Rat.num_natCast, bigEndian_two, patternOf_nat 16 _ (by omega), (byteAt_two a b).1,
    (byteAt_two a b).2]

theorem axis_byte (a : Byte) :
    byteAt (patternOf 8 (twosComplement 8 (bigEndian [a]))) 0 = a := by
  have ha := a.isLt
  rw [bigEndian_one, patternOf_twos 8 _ (by omega), byteAt_one]

theorem encode_analog (a b c d : Byte) :
    encodeOne ⟨"analog_uv", (twosComplement 32 (bigEndian [a, b, c, d]) : ℚ)⟩
      = [0x1B, a, b, c, d] := by
  have ha := a.isLt
  have hb := b.isLt
  have hc := c.isLt
  have hd := d.isLt
  have h4 := byteAt_four a b c d
  simp only [encodeOne, String.reduceEq, if_false, if_true, Rat.num_intCast] 
  rw [bigEndian_four, patternOf_twos 32 _ (by omega), h4.1, h4.2.1, h4.2.2.1, h4.2.2.2]
  rfl

theorem encode_pressure (a b c d : Byte) :
    encodeOne ⟨"pressure", (bigEndian [a, b, c, d] : ℚ) / 1000⟩
      = [0x14, a, b, c, d] := by
  have ha := a.isLt
  have hb := b.isLt
  have hc := c.isLt
  have hd := d.isLt
  have h4 := byteAt_four a b c d
  have hn := num_scaled (bigEndian [a, b, c, d] : Int) 1000 (by decide)
  simp only [Nat.cast_ofNat, Int.cast_natCast] at hn
  simp only [encodeOne, String.reduceEq, if_false, if_true, hn]
  rw [bigEndian_four, patternOf_nat 32 _ (by omega), h4.1, h4.2.1, h4.2.2.1, h4.2.2.2]
  rfl

/-- The encoder undoes the field table on every complete chunk. -/
theorem Chunk.encode_measurements (c : Chunk) (h : c.complete = true) :
    encode c.measurements = c.bytes := by
  refine Chunk.complete_cases (fun c => encode c.measurements = c.bytes)
    c h ?_ ?_ ?_ ?_ ?_ ?_ ?_ ?_ ?_ ?_
  · intro a b
    simp only [encode, Chunk.measurements, fieldTable, if_true, List.flatMap_cons,
      List.flatMap_nil, List.append_nil, encode_temp, Chunk.bytes]
  · intro a
    exact (by simp [encode, Chunk.measurements, fieldTable, Chunk.bytes,
      encode_byte "humidity" 0x02 a rfl])
  · intro x y z
    simp [encode, Chunk.measurements, fieldTable, Chunk.bytes, encodeOne]
    exact ⟨rfl, axis_byte x, axis_byte y, axis_byte z⟩
  · intro a b
    exact (by simp [encode, Chunk.measurements, fieldTable, Chunk.bytes,
      encode_word "light" 0x04 a b rfl])
  · intro a
    exact (by simp [encode, Chunk.measurements, fieldTable, Chunk.bytes,
      encode_byte "motion" 0x05 a rfl])
  · intro a b
    exact (by simp [encode, Chunk.measurements, fieldTable, Chunk.bytes,
      encode_word "co2" 0x06 a b rfl])
  · intro a b
    exact (by simp [encode, Chunk.measurements, fieldTable, Chunk.bytes,
      encode_word "vdd" 0x07 a b rfl])
  · intro a b c d
    simp [encode, Chunk.measurements, fieldTable, Chunk.bytes, encode_analog]
  · intro a b
    exact (by simp [encode, Chunk.measurements, fieldTable, Chunk.bytes,
      encode_word "tvoc" 0x1C a b rfl])
  · intro a b c d
    simp [encode, Chunk.measurements, fieldTable, Chunk.bytes, encode_pressure]

theorem encode_chunks (cs : List Chunk) (hc : ∀ c ∈ cs, c.complete = true) :
    encode (cs.flatMap Chunk.measurements) = cs.flatMap Chunk.bytes := by
  induction cs with
  | nil => rfl
  | cons c rest ih =>
    have h1 := Chunk.encode_measurements c (hc c (List.mem_cons_self _ _))
    have h2 := ih (fun x hx => hc x (List.mem_cons_of_mem _ hx))
    unfold encode at h1 h2 ⊢
    rw [List.flatMap_cons, List.flatMap_cons, List.flatMap_append, h1, h2]

theorem encode_decodeRaw (a : List Byte) (ms : List Measurement)
    (h : decodeRaw a = .ret ms none) : encode ms = a := by
  obtain ⟨cs, _, hc, rfl, rfl⟩ := (decodeRaw_iff_chunks a ms).1 h
  exact encode_chunks cs hc

/-- Claim C17: decode is injective on the buffers it accepts: two buffers that
decode to the same measurement sequence (same names, same values as exact
quotients) are equal, and the encoder `encode` gives the buffer back from the
result of its decode. -/
theorem decode_injective (a b : List Byte) (ms : List Measurement)
    (ha : decodeRaw a = .ret ms none) (hb : decodeRaw b = .ret ms none) :
    a = b ∧ encode ms = a :=
  ⟨(encode_decodeRaw a ms ha).symm.trans (encode_decodeRaw b ms hb), encode_decodeRaw a ms ha⟩

theorem decode_injective_witness :
    [(0x01 : Byte), 0x00, 0xD7, 0x02, 0x32] = [0x01, 0x00, 0xD7, 0x02, 0x32] ∧
    encode [⟨"temperature", 43 / 2⟩, ⟨"humidity", 50⟩] = [0x01, 0x00, 0xD7, 0x02, 0x32] :=
  decode_injective _ _ _ sample_temp_hum sample_temp_hum

/-! ## The entry point -/

/-- Claim C12: the entry point composes the transport codec with the walk.
For every codec and input string: if transport decoding fails with cause
`err`, `Decode` returns no measurements and the error that wraps `err`, whose
text is `base64 decode error` followed by `: ` and the cause, and which is
none of `EmptyPayload`, `TruncatedPayload`, `UnknownTag`; if it succeeds with
bytes `raw`, `Decode` returns exactly the result of the walk on `raw`, which
is `EmptyPayload` when `raw` has no bytes. -/
theorem decode_composes_transport (decodeString : String → Except String (List Byte))
    (b64 : String) :
    (∀ err, decodeString b64 = .error err →
      Decode decodeString b64 = .ret [] (some (.base64 err)) ∧
      (DecodeError.base64 err).message = "base64 decode error" ++ (": " ++ err) ∧
      DecodeError.base64 err ≠ .emptyPayload ∧ DecodeError.base64 err ≠ .errShort ∧
      ∀ t i, DecodeError.base64 err ≠ .errUnknown t i) ∧
    (∀ raw, decodeString b64 = .ok raw → Decode decodeString b64 = decodeRaw raw) ∧
    (decodeString b64 = .ok [] → Decode decodeString b64 = .ret [] (some .emptyPayload)) := by
  refine ⟨?_, ?_, ?_⟩
  · intro err h
    refine ⟨by simp [Decode, h], ?_, by simp, by simp, by simp⟩
    show "base64 decode error: " ++ err = "base64 decode error" ++ (": " ++ err)
    rw [← String.append_assoc]
    rfl
  · intro raw h
    simp [Decode, h]
  · intro h
    simp [Decode, h, decodeRaw]

theorem decode_composes_transport_witness :
    Decode stdDecodeString "" = .ret [] (some .emptyPayload) ∧
    Decode stdDecodeString "AQDXAjI=" = decodeRaw [0x01, 0x00, 0xD7, 0x02, 0x32] ∧
    Decode stdDecodeString "AQD?"
      = .ret [] (some (.base64 "illegal base64 data")) ∧
    (DecodeError.base64 "illegal base64 data").message
      = "base64 decode error" ++ (": " ++ "illegal base64 data") :=
  ⟨(decode_composes_transport stdDecodeString "").2.2 rfl,
   (decode_composes_transport stdDecodeString "AQDXAjI=").2.1 _ rfl,
   ((decode_composes_transport stdDecodeString "AQD?").1 _ rfl).1,
   ((decode_composes_transport stdDecodeString "AQD?").1 _ rfl).2.1⟩


end Elsys
